import Mathlib

/-!
Verification of the GamesAI search/decision layer (Minimax, AlphaBeta,
MinimaxPlus/Expectiminimax, Monte Carlo Tree Search) against its
natural-language specification.

The Python source is shallowly embedded:
* `Game` mirrors the `Game` contract of `GamesAI/Game.py`
  (`get_actions`, `get_result`, `is_terminal_state`, `get_utilities`,
  `get_player_playing`, `get_random_action_distribution`).
* Player identity: Python `Player.__eq__`/`__hash__` compare only
  `game_name`, and every utility dictionary is keyed by players, hence
  effectively by their names.  We therefore key utility vectors directly
  by an abstract player-identity type `P` and represent a utility
  dictionary as a total function `P → ℚ` (Python floats are embedded as
  rationals: the source only adds, multiplies and compares them).
* Unbounded Python recursion (`max_depth = float("inf")`) is embedded
  with an explicit fuel parameter; exhausted fuel, as well as every
  Python exception (`ValueError` of `min([])`, `UnboundLocalError` of
  `argmax`, `TypeError` from comparing a dict with a float, ...), is
  `none` of an `Option` result.
-/

/-- Extended rationals, embedding Python's `float("-inf")`/`float("inf")`
sentinels together with ordinary (rational-embedded) float values. -/
abbrev ERat := WithBot (WithTop ℚ)

namespace GamesAI

/-- Embed a rational into the extended rationals. -/
def toERat (q : ℚ) : ERat := ((q : WithTop ℚ) : ERat)

theorem toERat_lt_iff {a b : ℚ} : toERat a < toERat b ↔ a < b := by
  simp [toERat]

theorem toERat_inj {a b : ℚ} : toERat a = toERat b ↔ a = b := by
  simp [toERat]

/-- `utils.argmax` from `GamesAI/utils.py`:

    max_value = float("-inf")
    for idx in indexes:
        value = func(idx)
        if value > max_value:
            max_value = value
            max_idx = idx
    return max_idx

The running maximum starts at `-inf` and is updated on strict improvement
only, so the returned index is the first index attaining the maximum.
`func` may raise (embedded as `none`), which aborts the whole call; an
empty index list raises `ValueError`; if no strict improvement ever
happens (every value is `-inf`) the final `return max_idx` raises
`UnboundLocalError`.  All three failure modes are `none`. -/
def argmaxLoop {A : Type} (func : A → Option ERat) :
    List A → ERat → Option A → Option A
  | [], _, best => best
  | idx :: rest, maxValue, best =>
    match func idx with
    | none => none
    | some value =>
      if maxValue < value then argmaxLoop func rest value (some idx)
      else argmaxLoop func rest maxValue best

def argmax {A : Type} (indexes : List A) (func : A → Option ERat) : Option A :=
  argmaxLoop func indexes ⊥ none

/-- Python `min(list_of_floats)`: `ValueError` on the empty list. -/
def listMin : List ℚ → Option ℚ
  | [] => none
  | q :: rest => some (rest.foldl min q)

/-- Python `max(list_of_floats)`: `ValueError` on the empty list. -/
def listMax : List ℚ → Option ℚ
  | [] => none
  | q :: rest => some (rest.foldl max q)

/-- A Python list comprehension `[f(x) for x in l]` over a fallible
`f`: the first raised exception (`none`) propagates; otherwise the
list of results is returned in order. -/
def mapOpt {A B : Type} (f : A → Option B) : List A → Option (List B)
  | [] => some []
  | a :: rest =>
    match f a with
    | none => none
    | some b =>
      match mapOpt f rest with
      | none => none
      | some bs => some (b :: bs)

/-- The `Game` contract (`GamesAI/Game.py`).  `S` is the state type, `A`
the action type, `P` the player-identity type.  `mover` is
`get_player_playing` (`none` means chance moves), `chanceDist` is
`get_random_action_distribution` as an association list, and `players`
is the list of game names (`game.names` / `get_players().keys()`). -/
structure Game (S A P : Type) where
  actions : S → List A
  result : S → A → S
  isTerminal : S → Bool
  utilities : S → P → ℚ
  mover : S → Option P
  chanceDist : S → List (A × ℚ)
  players : List P

/-- The two `ValueError`s that `Minimax.__init__`, `AlphaBeta.__init__`
and `MonteCarloTreeSearch.__init__` can raise. -/
inductive InitError : Type
  | heuristicDepthMismatch   -- "Heuristic and max_depth are either inf/None ... or non_inf/non_None"
  | wrongPlayerCount         -- "... can only be used for 2 player games"
deriving DecidableEq

/-- `Minimax.__init__` (`Player.py` lines 83-90): first checks
`(max_depth == float("inf")) != (heuristic is None)`, then
`len(game.names) != 2`.  `maxDepth = none` embeds the infinite default;
`heuristic` is the optional heuristic argument. -/
def minimaxInit {H : Type} (numNames : ℕ) (maxDepth : Option ℕ)
    (heuristic : Option H) : Except InitError Unit :=
  if maxDepth.isNone != heuristic.isNone then
    Except.error InitError.heuristicDepthMismatch
  else if numNames ≠ 2 then Except.error InitError.wrongPlayerCount
  else Except.ok ()

/-- `AlphaBeta.__init__` (`Player.py` lines 121-128): same two checks in
the same order as `Minimax.__init__`. -/
def alphaBetaInit {H : Type} (numNames : ℕ) (maxDepth : Option ℕ)
    (heuristic : Option H) : Except InitError Unit :=
  minimaxInit numNames maxDepth heuristic

/-- `MonteCarloTreeSearch.__init__` (`algorithms/MCTS.py` lines 57-65):
stores `n_rollouts`, then checks `len(game.names) != 2`.  `nRollouts`
plays no role in the check. -/
def mctsInit (numNames : ℕ) (nRollouts : ℕ) : Except InitError Unit :=
  let _ := nRollouts
  if numNames ≠ 2 then Except.error InitError.wrongPlayerCount
  else Except.ok ()

/-- `depth >= self.max_depth` where `maxDepth = none` embeds the
`float("inf")` default (the comparison is then always false). -/
def cutoffReached (maxDepth : Option ℕ) (depth : ℕ) : Bool :=
  match maxDepth with
  | none => false
  | some d => decide (d ≤ depth)

namespace Minimax

variable {S A P : Type}

/-! `Minimax.min_value` and `Minimax.max_value` (`Player.py` lines
97-113).  `selfP` is the searching player's identity (`self` /
`self.game_name`: Python player equality is by name).  Terminal states
return `get_utilities(state)[self]`; at a depth cutoff
`heuristic(state)[self.game_name]` is returned (`none` if no heuristic
was supplied: calling `None` raises); otherwise the min/max over
`[other_value(result(s, a)) for a in actions(s)]` is taken, where
Python `min`/`max` raise on an empty list (`listMin`).  The extra fuel
argument makes the unbounded Python recursion structural; exhausting it
is `none`. -/
mutual

def minValue (g : Game S A P) (selfP : P) (maxDepth : Option ℕ)
    (heuristic : Option (S → P → ℚ)) : ℕ → S → ℕ → Option ℚ
  | 0, _, _ => none
  | fuel+1, s, depth =>
    if g.isTerminal s then some (g.utilities s selfP)
    else if cutoffReached maxDepth depth then heuristic.map (fun h => h s selfP)
    else
      match mapOpt
          (fun a => maxValue g selfP maxDepth heuristic fuel (g.result s a) (depth+1))
          (g.actions s) with
      | none => none
      | some vals => listMin vals

def maxValue (g : Game S A P) (selfP : P) (maxDepth : Option ℕ)
    (heuristic : Option (S → P → ℚ)) : ℕ → S → ℕ → Option ℚ
  | 0, _, _ => none
  | fuel+1, s, depth =>
    if g.isTerminal s then some (g.utilities s selfP)
    else if cutoffReached maxDepth depth then heuristic.map (fun h => h s selfP)
    else
      match mapOpt
          (fun a => minValue g selfP maxDepth heuristic fuel (g.result s a) (depth+1))
          (g.actions s) with
      | none => none
      | some vals => listMax vals

end

/-- `Minimax.get_action` (`Player.py` line 94):
`argmax(actions(state), fun a => min_value(result(state, a), depth=1))`. -/
def getAction (g : Game S A P) (selfP : P) (maxDepth : Option ℕ)
    (heuristic : Option (S → P → ℚ)) (fuel : ℕ) (state : S) : Option A :=
  GamesAI.argmax (g.actions state)
    (fun a => (minValue g selfP maxDepth heuristic fuel (g.result state a) 1).map toERat)

end Minimax

namespace AlphaBeta

variable {S A P : Type}

/-- The `for action in actions` loop of `AlphaBeta.min_value`
(`Player.py` lines 141-148): running minimum `value` (initially
`float("inf")`), early return once `value <= alpha`, and
`beta = min(beta, value)` between iterations.  `next` evaluates
`max_value(successor, depth+1, alpha, beta)`. -/
def minLoop (g : Game S A P) (next : S → ERat → ERat → Option ERat)
    (s : S) (alpha : ERat) : List A → ERat → ERat → Option ERat
  | [], _, value => some value
  | a :: rest, beta, value =>
    match next (g.result s a) alpha beta with
    | none => none
    | some v =>
      if min value v ≤ alpha then some (min value v)
      else minLoop g next s alpha rest (min beta (min value v)) (min value v)

/-- The `for action in actions` loop of `AlphaBeta.max_value`
(`Player.py` lines 157-164): running maximum `value` (initially
`float("-inf")`), early return once `value >= beta`, and
`alpha = max(alpha, value)` between iterations. -/
def maxLoop (g : Game S A P) (next : S → ERat → ERat → Option ERat)
    (s : S) (beta : ERat) : List A → ERat → ERat → Option ERat
  | [], _, value => some value
  | a :: rest, alpha, value =>
    match next (g.result s a) alpha beta with
    | none => none
    | some v =>
      if beta ≤ max value v then some (max value v)
      else maxLoop g next s beta rest (max alpha (max value v)) (max value v)

/-! `AlphaBeta.min_value` and `AlphaBeta.max_value` (`Player.py` lines
134-164).  The depth-cutoff branch of the source returns
`self.heuristic(state)` — the raw per-player dict — which the caller
immediately compares against a float (`min(value, ...)`,
`max(value, ...)` or `argmax`'s `value > max_value`), raising
`TypeError`; the branch is therefore embedded as `none` (the exception
propagates in exactly the same way). -/
mutual

def minValue (g : Game S A P) (selfP : P) (maxDepth : Option ℕ)
    (heuristic : Option (S → P → ℚ)) : ℕ → S → ℕ → ERat → ERat → Option ERat
  | 0, _, _, _, _ => none
  | fuel+1, s, depth, alpha, beta =>
    if g.isTerminal s then some (toERat (g.utilities s selfP))
    else if cutoffReached maxDepth depth then none
    else
      minLoop g (fun s2 α β => maxValue g selfP maxDepth heuristic fuel s2 (depth+1) α β)
        s alpha (g.actions s) beta ⊤

def maxValue (g : Game S A P) (selfP : P) (maxDepth : Option ℕ)
    (heuristic : Option (S → P → ℚ)) : ℕ → S → ℕ → ERat → ERat → Option ERat
  | 0, _, _, _, _ => none
  | fuel+1, s, depth, alpha, beta =>
    if g.isTerminal s then some (toERat (g.utilities s selfP))
    else if cutoffReached maxDepth depth then none
    else
      maxLoop g (fun s2 α β => minValue g selfP maxDepth heuristic fuel s2 (depth+1) α β)
        s beta (g.actions s) alpha ⊥

end

/-- `AlphaBeta.get_action` (`Player.py` line 132):
`argmax(actions(state), fun a => min_value(result(state, a), 1, -inf, inf))`. -/
def getAction (g : Game S A P) (selfP : P) (maxDepth : Option ℕ)
    (heuristic : Option (S → P → ℚ)) (fuel : ℕ) (state : S) : Option A :=
  GamesAI.argmax (g.actions state)
    (fun a => minValue g selfP maxDepth heuristic fuel (g.result state a) 1 ⊥ ⊤)

end AlphaBeta

namespace MinimaxPlus

variable {S A P : Type}

/-- The chance-node loop of `MinimaxPlus.best_utilities_for_player`
(`Player.py` lines 197-203): starting from the all-zero utility dict
over the game's players, add `prob * next_utilities[player]` for every
`(action, prob)` of `get_random_action_distribution(state)`.  Utility
dicts are embedded as total functions on player identities (Python
player equality is by game name), so the pointwise update over the
players' keys becomes a pointwise function update.  `next` evaluates
`best_utilities_for_player(result(state, action), depth + 1)`. -/
def chanceFold (g : Game S A P) (next : S → Option (P → ℚ)) (s : S) :
    List (A × ℚ) → (P → ℚ) → Option (P → ℚ)
  | [], acc => some acc
  | ap :: rest, acc =>
    match next (g.result s ap.1) with
    | none => none
    | some nu => chanceFold g next s rest (fun p => acc p + ap.2 * nu p)

/-- The player-node loop of `MinimaxPlus.best_utilities_for_player`
(`Player.py` lines 207-215): `best_value` starts at `float("-inf")`
and is replaced on strict improvement of `next_utilities[player_playing]`
together with the whole vector `best_utilities`.  Returning with no
iteration ever taken (`best = none`) is Python's `UnboundLocalError`. -/
def playerFold (g : Game S A P) (next : S → Option (P → ℚ)) (s : S) (pl : P) :
    List A → ERat → Option (P → ℚ) → Option (P → ℚ)
  | [], _, best => best
  | a :: rest, bestValue, best =>
    match next (g.result s a) with
    | none => none
    | some nu =>
      if bestValue < toERat (nu pl) then
        playerFold g next s pl rest (toERat (nu pl)) (some nu)
      else playerFold g next s pl rest bestValue best

/-- `MinimaxPlus.best_utilities_for_player` (`Player.py` lines
187-215): terminal states return the true utility dict; a depth cutoff
returns the heuristic dict re-keyed by player objects (the identity
under our name-keyed embedding); a chance node (`get_player_playing`
returns `None`) accumulates the probability-weighted successor vectors;
a player node keeps the full successor vector of the first action whose
value at the mover's coordinate strictly improves on the running
maximum. -/
def bestUtilities (g : Game S A P) (maxDepth : Option ℕ)
    (heuristic : Option (S → P → ℚ)) : ℕ → S → ℕ → Option (P → ℚ)
  | 0, _, _ => none
  | fuel+1, s, depth =>
    if g.isTerminal s then some (g.utilities s)
    else if cutoffReached maxDepth depth then heuristic.map (fun h => h s)
    else
      match g.mover s with
      | none =>
        chanceFold g (fun s2 => bestUtilities g maxDepth heuristic fuel s2 (depth+1)) s
          (g.chanceDist s) (fun _ => 0)
      | some pl =>
        playerFold g (fun s2 => bestUtilities g maxDepth heuristic fuel s2 (depth+1)) s pl
          (g.actions s) ⊥ none

/-- `MinimaxPlus.get_action` (`Player.py` lines 179-185):
`argmax(actions(state), fun a => best_utilities_for_player(result(state, a), depth=1)[self])`. -/
def getAction (g : Game S A P) (selfP : P) (maxDepth : Option ℕ)
    (heuristic : Option (S → P → ℚ)) (fuel : ℕ) (state : S) : Option A :=
  GamesAI.argmax (g.actions state)
    (fun a =>
      (bestUtilities g maxDepth heuristic fuel (g.result state a) 1).map
        (fun u => toERat (u selfP)))

/-- Of a list of utility vectors, the first one whose value at
coordinate `pl` is maximal (the reference tie-break of the
specification: first such action in enumeration order). -/
def firstMaxBy : List (P → ℚ) → P → Option (P → ℚ)
  | [], _ => none
  | v :: rest, pl =>
    some (rest.foldl (fun best u => if best pl < u pl then u else best) v)

/-- Reference expectiminimax evaluator, written from the
specification's words (§4.4): terminal → true utility vector; depth
cutoff → heuristic vector; chance node → coordinate-wise
probability-weighted average of all successor vectors under the chance
distribution (with probabilities summing to 1 per the §3 data-model
invariant, the weighted average is the weighted sum computed here);
player-to-move node → the successor vector with maximal value at the
mover's own coordinate, first in enumeration order on ties, propagated
entirely unchanged. -/
def specEval (g : Game S A P) (maxDepth : Option ℕ)
    (heuristic : Option (S → P → ℚ)) : ℕ → S → ℕ → Option (P → ℚ)
  | 0, _, _ => none
  | fuel+1, s, depth =>
    if g.isTerminal s then some (g.utilities s)
    else if cutoffReached maxDepth depth then heuristic.map (fun h => h s)
    else
      match g.mover s with
      | none =>
        match mapOpt
            (fun ap =>
              (specEval g maxDepth heuristic fuel (g.result s ap.1) (depth+1)).map
                (fun u p => ap.2 * u p))
            (g.chanceDist s) with
        | none => none
        | some vs => some (fun p => (vs.map (fun u => u p)).sum)
      | some pl =>
        match mapOpt
            (fun a => specEval g maxDepth heuristic fuel (g.result s a) (depth+1))
            (g.actions s) with
        | none => none
        | some vs => firstMaxBy vs pl

theorem chanceFold_eq_mapOpt (g : Game S A P) (next : S → Option (P → ℚ))
    (s : S) :
    ∀ (l : List (A × ℚ)) (acc : P → ℚ),
      chanceFold g next s l acc =
        (mapOpt (fun ap => (next (g.result s ap.1)).map (fun u p => ap.2 * u p)) l).map
          (fun vs p => acc p + (vs.map (fun u => u p)).sum) := by
  intro l
  induction l with
  | nil =>
    intro acc
    simp only [chanceFold, mapOpt, Option.map_some]
    exact Option.some_inj.mpr (funext fun p => by simp)
  | cons ap rest ih =>
    intro acc
    simp only [chanceFold, mapOpt]
    cases hn : next (g.result s ap.1) with
    | none => rfl
    | some nu =>
      simp only []
      rw [ih]
      cases hm : mapOpt (fun ap => (next (g.result s ap.1)).map (fun u p => ap.2 * u p))
          rest with
      | none => rfl
      | some vs =>
        simp only [Option.map_some]
        exact Option.some_inj.mpr (funext fun p => by simp [List.map_cons, List.sum_cons, add_assoc])

theorem playerFold_some (g : Game S A P) (next : S → Option (P → ℚ))
    (s : S) (pl : P) :
    ∀ (l : List A) (u : P → ℚ),
      playerFold g next s pl l (toERat (u pl)) (some u) =
        (mapOpt (fun a => next (g.result s a)) l).map
          (fun vs => vs.foldl (fun best v => if best pl < v pl then v else best) u) := by
  intro l
  induction l with
  | nil => intro u; rfl
  | cons a rest ih =>
    intro u
    simp only [playerFold, mapOpt]
    cases hn : next (g.result s a) with
    | none => rfl
    | some nu =>
      simp only []
      by_cases hlt : u pl < nu pl
      · rw [if_pos (toERat_lt_iff.mpr hlt), ih nu]
        cases hm : mapOpt (fun a => next (g.result s a)) rest with
        | none => rfl
        | some vs => simp [List.foldl_cons, hlt]
      · rw [if_neg (fun hc => hlt (toERat_lt_iff.mp hc)), ih u]
        cases hm : mapOpt (fun a => next (g.result s a)) rest with
        | none => rfl
        | some vs => simp [List.foldl_cons, hlt]

theorem playerFold_start (g : Game S A P) (next : S → Option (P → ℚ))
    (s : S) (pl : P) (l : List A) :
    playerFold g next s pl l ⊥ none =
      (mapOpt (fun a => next (g.result s a)) l).bind (fun vs => firstMaxBy vs pl) := by
  cases l with
  | nil => rfl
  | cons a rest =>
    simp only [playerFold, mapOpt]
    cases hn : next (g.result s a) with
    | none => rfl
    | some nu =>
      simp only []
      rw [if_pos (bot_lt_iff_ne_bot.mpr (by simp [toERat]))]
      rw [playerFold_some g next s pl rest nu]
      cases hm : mapOpt (fun a => next (g.result s a)) rest with
      | none => rfl
      | some vs => rfl

/-- C5: `MinimaxPlus.best_utilities_for_player` computes exactly the
reference expectiminimax vector of the specification (terminal → true
utilities; cutoff → heuristic vector; chance node → coordinate-wise
probability-weighted combination of successor vectors; player node →
the first successor vector maximal at the mover's own coordinate,
propagated unchanged), for every state, depth, depth bound, heuristic
and recursion fuel. -/
theorem bestUtilities_eq_specEval (g : Game S A P) (maxDepth : Option ℕ)
    (heuristic : Option (S → P → ℚ)) :
    ∀ (fuel : ℕ) (s : S) (depth : ℕ),
      MinimaxPlus.bestUtilities g maxDepth heuristic fuel s depth =
        MinimaxPlus.specEval g maxDepth heuristic fuel s depth := by
  intro fuel
  induction fuel with
  | zero => intro s depth; rfl
  | succ fuel ih =>
    intro s depth
    simp only [MinimaxPlus.bestUtilities, MinimaxPlus.specEval]
    by_cases ht : g.isTerminal s
    · simp [ht]
    · simp only [ht, Bool.false_eq_true, if_false]
      by_cases hc : cutoffReached maxDepth depth
      · simp [hc]
      · simp only [hc, Bool.false_eq_true, if_false]
        cases hm : g.mover s with
        | none =>
          simp only []
          rw [chanceFold_eq_mapOpt]
          simp only [ih]
          cases hmm : mapOpt
              (fun ap =>
                (MinimaxPlus.specEval g maxDepth heuristic fuel (g.result s ap.1)
                  (depth+1)).map (fun u p => ap.2 * u p))
              (g.chanceDist s) with
          | none => rfl
          | some vs =>
            simp only [Option.map_some]
            exact Option.some_inj.mpr (funext fun p => by simp)
        | some pl =>
          simp only []
          rw [playerFold_start]
          simp only [ih]
          cases hmm : mapOpt
              (fun a => MinimaxPlus.specEval g maxDepth heuristic fuel (g.result s a)
                (depth+1))
              (g.actions s) with
          | none => rfl
          | some vs => rfl

end MinimaxPlus

/-!
A tiny deterministic two-player zero-sum game used to exercise the
depth-cutoff branches.  Players are `true` (the searching player, game
name "A") and `false`.  State `0` is the root (mover `true`), state `1`
is its unique successor (mover `false`), state `2` is terminal with
utilities `1` for `true` and `-1` for `false` (zero-sum everywhere).
-/

def gAB : Game ℕ ℕ Bool where
  actions := fun s => if s ≤ 1 then [0] else []
  result := fun s _ => s + 1
  isTerminal := fun s => decide (2 ≤ s)
  utilities := fun s p => if 2 ≤ s then (if p then 1 else -1) else 0
  mover := fun s => if s = 0 then some true else some false
  chanceDist := fun _ => []
  players := [true, false]

/-- A heuristic (per-player mapping, as a total function on player
identities): value `5` for the searching player `true`, `-5` for the
opponent. -/
def hAB : ℕ → Bool → ℚ := fun _ p => if p then 5 else -5

/-!
A deterministic two-player zero-sum game with no chance nodes in which
player `true` moves twice in a row: state `0` (mover `true`, actions
`0 ↦ 1`, `1 ↦ 2`), state `1` (mover `true` again, actions `0 ↦ 3`,
`1 ↦ 4`); states `2`, `3`, `4` are terminal with utilities `3`, `0`
and `5` for player `true` and the negations for player `false`.
-/

def gTwice : Game ℕ ℕ Bool where
  actions := fun s => if s ≤ 1 then [0, 1] else []
  result := fun s a =>
    if s = 0 then (if a = 0 then 1 else 2)
    else if s = 1 then (if a = 0 then 3 else 4) else 9
  isTerminal := fun s => decide (2 ≤ s)
  utilities := fun s p =>
    if s = 2 then (if p then 3 else -3)
    else if s = 4 then (if p then 5 else -5)
    else 0
  mover := fun s => if s ≤ 1 then some true else some false
  chanceDist := fun _ => []
  players := [true, false]

/-- `gTwice` really is a two-player zero-sum deterministic game with no
chance nodes: the utility vector sums to zero at every state, and every
state has a (non-chance) mover. -/
theorem gTwice_zero_sum_no_chance :
    (∀ s, gTwice.utilities s true + gTwice.utilities s false = 0) ∧
    (∀ s, (gTwice.mover s).isSome = true) := by
  constructor <;> intro s <;> simp only [gTwice] <;> split_ifs <;> simp_all

end GamesAI

namespace GamesAI

/-- C9: `Minimax`, `AlphaBeta` and `MonteCarloTreeSearch` construction
raises exactly when the game's player-name set does not have two
elements, or (for `Minimax`/`AlphaBeta`) when exactly one of a finite
`max_depth` and a `heuristic` is supplied; otherwise it succeeds. -/
theorem construction_check_characterization (H : Type) (numNames : ℕ)
    (maxDepth : Option ℕ) (heuristic : Option H) (nRollouts : ℕ) :
    (minimaxInit numNames maxDepth heuristic = Except.ok () ↔
      (numNames = 2 ∧ (maxDepth.isNone ↔ heuristic.isNone))) ∧
    (alphaBetaInit numNames maxDepth heuristic = Except.ok () ↔
      (numNames = 2 ∧ (maxDepth.isNone ↔ heuristic.isNone))) ∧
    (mctsInit numNames nRollouts = Except.ok () ↔ numNames = 2) := by
  unfold alphaBetaInit minimaxInit mctsInit
  cases maxDepth <;> cases heuristic <;> split_ifs <;> simp_all

/-- C1 evidence: on the game `gAB` with `max_depth = 1` and heuristic
`hAB` (a legal configuration: both are supplied), `Minimax.get_action`
at the root returns action `0`, while `AlphaBeta.get_action` raises a
`TypeError` (its depth-cutoff branch hands the raw heuristic dict to a
float comparison), embedded as `none`.  The two root actions are
therefore not equal, contradicting the claimed equivalence for every
jointly supplied `(max_depth, heuristic)` pair. -/
theorem alphaBeta_crashes_where_minimax_answers :
    Minimax.getAction gAB true (some 1) (some hAB) 10 0 = some 0 ∧
    AlphaBeta.getAction gAB true (some 1) (some hAB) 10 0 = none := by
  constructor <;> rfl

/-- C2 evidence: at the non-terminal state `1` reached at the depth
cutoff (`depth = 1 = max_depth`), `Minimax.min_value` returns the
scalar `heuristic(state)[self.game_name] = 5`, but
`AlphaBeta.min_value` does not return that scalar: its cutoff branch
returns the raw per-player mapping, which raises `TypeError` at the
enclosing comparison (embedded as `none`). -/
theorem cutoff_branch_minimax_vs_alphaBeta :
    Minimax.minValue gAB true (some 1) (some hAB) 10 1 1 = some (hAB 1 true) ∧
    hAB 1 true = 5 ∧
    AlphaBeta.minValue gAB true (some 1) (some hAB) 10 1 1 ⊥ ⊤ = none := by
  refine ⟨rfl, rfl, rfl⟩

/-- C6 counterexample: on the deterministic two-player zero-sum game
`gTwice` with no chance nodes (see `gTwice_zero_sum_no_chance`), at
full depth (`max_depth` infinite, no heuristic), `Minimax.get_action`
at the root returns action `1` but `MinimaxPlus.get_action` returns
action `0`: `Minimax` alternates MIN/MAX layers by depth parity
whereas `MinimaxPlus` follows the actual mover, and in `gTwice` player
`true` moves twice in a row. -/
theorem minimaxPlus_minimax_differ_on_gTwice :
    Minimax.getAction gTwice true none none 10 0 = some 1 ∧
    MinimaxPlus.getAction gTwice true none none 10 0 = some 0 := by
  constructor <;> rfl

end GamesAI

namespace GamesAI

/-!
Supporting lemmas for the reduction of `MinimaxPlus` to `Minimax` on
strictly alternating two-player zero-sum games at full depth.
-/

theorem mapOpt_rel {A B C : Type} (f : A → Option B) (h : B → C) (f2 : A → Option C) :
    ∀ (l : List A), (∀ a ∈ l, f2 a = (f a).map h) →
      mapOpt f2 l = (mapOpt f l).map (fun bs => bs.map h) := by
  intro l
  induction l with
  | nil => intro _; rfl
  | cons a rest ih =>
    intro hp
    simp only [mapOpt]
    rw [hp a (List.mem_cons_self a rest)]
    cases hfa : f a with
    | none => rfl
    | some b =>
      rw [ih (fun x hx => hp x (List.mem_cons_of_mem a hx))]
      cases hrest : mapOpt f rest with
      | none => rfl
      | some bs => rfl

theorem mapOpt_mem {A B : Type} (f : A → Option B) :
    ∀ (l : List A) (bs : List B), mapOpt f l = some bs →
      ∀ b ∈ bs, ∃ a ∈ l, f a = some b := by
  intro l
  induction l with
  | nil =>
    intro bs hbs b hb
    simp only [mapOpt, Option.some_inj] at hbs
    subst hbs
    exact absurd hb (List.not_mem_nil b)
  | cons a rest ih =>
    intro bs hbs b hb
    simp only [mapOpt] at hbs
    cases hfa : f a with
    | none => rw [hfa] at hbs; exact absurd hbs (by simp)
    | some c =>
      rw [hfa] at hbs
      cases hrest : mapOpt f rest with
      | none => rw [hrest] at hbs; exact absurd hbs (by simp)
      | some cs =>
        rw [hrest] at hbs
        simp only [Option.some_inj] at hbs
        subst hbs
        rcases List.mem_cons.mp hb with hb | hb
        · exact ⟨a, List.mem_cons_self a rest, hb ▸ hfa⟩
        · obtain ⟨x, hx, hfx⟩ := ih cs hrest b hb
          exact ⟨x, List.mem_cons_of_mem a hx, hfx⟩

theorem playerFold_mem {S A P : Type} (g : Game S A P)
    (next : S → Option (P → ℚ)) (s : S) (pl : P) :
    ∀ (l : List A) (bv : ERat) (best : Option (P → ℚ)) (u : P → ℚ),
      MinimaxPlus.playerFold g next s pl l bv best = some u →
      best = some u ∨ ∃ a ∈ l, next (g.result s a) = some u := by
  intro l
  induction l with
  | nil =>
    intro bv best u hu
    exact Or.inl hu
  | cons a rest ih =>
    intro bv best u hu
    simp only [MinimaxPlus.playerFold] at hu
    cases hn : next (g.result s a) with
    | none => rw [hn] at hu; exact absurd hu (by simp)
    | some nu =>
      rw [hn] at hu
      simp only [] at hu
      by_cases hlt : bv < toERat (nu pl)
      · rw [if_pos hlt] at hu
        rcases ih _ _ u hu with hcase | ⟨x, hx, hfx⟩
        · simp only [Option.some_inj] at hcase
          exact Or.inr ⟨a, List.mem_cons_self a rest, hcase ▸ hn⟩
        · exact Or.inr ⟨x, List.mem_cons_of_mem a hx, hfx⟩
      · rw [if_neg hlt] at hu
        rcases ih _ _ u hu with hcase | ⟨x, hx, hfx⟩
        · exact Or.inl hcase
        · exact Or.inr ⟨x, List.mem_cons_of_mem a hx, hfx⟩

/-- Every utility vector produced by a full-depth
`best_utilities_for_player` evaluation on a two-player game with
zero-sum terminal utilities is itself zero-sum: at a player node the
entire chosen successor vector is propagated unchanged. -/
theorem bestUtilities_zero_sum {S A P : Type} (g : Game S A P) (pA pB : P)
    (hmov : ∀ s, g.isTerminal s = false → g.mover s = some pA ∨ g.mover s = some pB)
    (hzs : ∀ s, g.isTerminal s = true → g.utilities s pA + g.utilities s pB = 0) :
    ∀ (fuel : ℕ) (s : S) (d : ℕ) (u : P → ℚ),
      MinimaxPlus.bestUtilities g none none fuel s d = some u →
      u pA + u pB = 0 := by
  intro fuel
  induction fuel with
  | zero =>
    intro s d u hu
    exact absurd hu (by simp [MinimaxPlus.bestUtilities])
  | succ fuel ih =>
    intro s d u hu
    simp only [MinimaxPlus.bestUtilities] at hu
    by_cases ht : g.isTerminal s
    · rw [if_pos ht] at hu
      simp only [Option.some_inj] at hu
      subst hu
      exact hzs s ht
    · rw [if_neg ht] at hu
      simp only [cutoffReached] at hu
      cases hm : g.mover s with
      | none =>
        rcases hmov s (Bool.not_eq_true _ ▸ Bool.of_not_eq_true ht) with h | h <;>
          simp_all
      | some pl =>
        rw [hm] at hu
        simp only [] at hu
        rcases playerFold_mem g _ s pl (g.actions s) ⊥ none u hu with hcase | ⟨a, _, hfa⟩
        · exact absurd hcase (by simp)
        · exact ih (g.result s a) (d+1) u hfa

theorem foldl_firstMax_coord {P : Type} (pl : P) :
    ∀ (rest : List (P → ℚ)) (v : P → ℚ),
      (rest.foldl (fun best u => if best pl < u pl then u else best) v) pl =
        (rest.map (fun u => u pl)).foldl max (v pl) := by
  intro rest
  induction rest with
  | nil => intro v; rfl
  | cons w rest ih =>
    intro v
    simp only [List.foldl_cons, List.map_cons]
    rw [ih]
    congr 1
    by_cases hlt : v pl < w pl
    · rw [if_pos hlt, max_eq_right hlt.le]
    · rw [if_neg hlt, max_eq_left (le_of_not_lt hlt)]

/-- First-maximum selection commutes with reading off the selection
coordinate: the value at `pl` of the chosen vector is the maximum of
the values at `pl`. -/
theorem firstMaxBy_coord_max {P : Type} (pl : P) (vs : List (P → ℚ)) :
    (MinimaxPlus.firstMaxBy vs pl).map (fun u => u pl) =
      listMax (vs.map (fun u => u pl)) := by
  cases vs with
  | nil => rfl
  | cons v rest =>
    simp only [MinimaxPlus.firstMaxBy, listMax, List.map_cons]
    simpa using foldl_firstMax_coord pl rest v

theorem foldl_firstMaxB_coordA {P : Type} (pA pB : P) :
    ∀ (rest : List (P → ℚ)) (v : P → ℚ),
      (∀ u ∈ v :: rest, u pA + u pB = 0) →
      (rest.foldl (fun best u => if best pB < u pB then u else best) v) pA =
        (rest.map (fun u => u pA)).foldl min (v pA) := by
  intro rest
  induction rest with
  | nil => intro v _; rfl
  | cons w rest ih =>
    intro v hz
    have hv : v pA + v pB = 0 := hz v (by simp)
    have hw : w pA + w pB = 0 := hz w (by simp)
    simp only [List.foldl_cons, List.map_cons]
    have hstep : (if v pB < w pB then w else v) pA = min (v pA) (w pA) := by
      by_cases hlt : v pB < w pB
      · have : w pA < v pA := by linarith
        rw [if_pos hlt, min_eq_right this.le]
      · have : v pA ≤ w pA := by
          by_contra hc
          exact hlt (by linarith [lt_of_not_le hc])
        rw [if_neg hlt, min_eq_left this]
    have hmem : ∀ u ∈ (if v pB < w pB then w else v) :: rest, u pA + u pB = 0 := by
      intro u hu
      rcases List.mem_cons.mp hu with hu | hu
      · subst hu
        by_cases hlt : v pB < w pB
        · rw [if_pos hlt]; exact hw
        · rw [if_neg hlt]; exact hv
      · exact hz u (by simp [hu])
    rw [ih _ hmem, hstep]

/-- On zero-sum vectors, first-maximum selection at the opponent's
coordinate `pB`, read off at `pA`, is the minimum of the `pA`
coordinates. -/
theorem firstMaxBy_opp_coord_min {P : Type} (pA pB : P) (vs : List (P → ℚ))
    (hz : ∀ u ∈ vs, u pA + u pB = 0) :
    (MinimaxPlus.firstMaxBy vs pB).map (fun u => u pA) =
      listMin (vs.map (fun u => u pA)) := by
  cases vs with
  | nil => rfl
  | cons v rest =>
    simp only [MinimaxPlus.firstMaxBy, listMin, List.map_cons]
    simpa using foldl_firstMaxB_coordA pA pB rest v hz

theorem argmaxLoop_congr {A : Type} (f f2 : A → Option ERat) :
    ∀ (l : List A) (mv : ERat) (best : Option A),
      (∀ a ∈ l, f a = f2 a) →
      argmaxLoop f l mv best = argmaxLoop f2 l mv best := by
  intro l
  induction l with
  | nil => intro mv best _; rfl
  | cons a rest ih =>
    intro mv best hp
    simp only [argmaxLoop]
    rw [hp a (List.mem_cons_self a rest)]
    cases f2 a with
    | none => rfl
    | some v =>
      simp only []
      by_cases hlt : mv < v
      · rw [if_pos hlt, if_pos hlt, ih _ _ (fun x hx => hp x (List.mem_cons_of_mem a hx))]
      · rw [if_neg hlt, if_neg hlt, ih _ _ (fun x hx => hp x (List.mem_cons_of_mem a hx))]

theorem argmax_congr {A : Type} (l : List A) (f f2 : A → Option ERat)
    (hp : ∀ a ∈ l, f a = f2 a) : argmax l f = argmax l f2 :=
  argmaxLoop_congr f f2 l ⊥ none hp

/-- On a strictly alternating two-player zero-sum game, the scalar
computed by `Minimax.min_value` (at an opponent-to-move or terminal
state) and by `Minimax.max_value` (at a searcher-to-move or terminal
state) is the searching player's coordinate of the full-depth
`MinimaxPlus.best_utilities_for_player` vector, with identical failure
behaviour. -/
theorem minimax_bestUtilities_corr {S A P : Type} (g : Game S A P) (pA pB : P)
    (hmov : ∀ s, g.isTerminal s = false → g.mover s = some pA ∨ g.mover s = some pB)
    (halt : ∀ s a, g.isTerminal s = false → a ∈ g.actions s →
      g.isTerminal (g.result s a) = false → g.mover (g.result s a) ≠ g.mover s)
    (hzs : ∀ s, g.isTerminal s = true → g.utilities s pA + g.utilities s pB = 0) :
    ∀ (fuel : ℕ) (s : S) (d : ℕ),
      ((g.isTerminal s = true ∨ g.mover s = some pB) →
        Minimax.minValue g pA none none fuel s d =
          (MinimaxPlus.bestUtilities g none none fuel s d).map (fun u => u pA)) ∧
      ((g.isTerminal s = true ∨ g.mover s = some pA) →
        Minimax.maxValue g pA none none fuel s d =
          (MinimaxPlus.bestUtilities g none none fuel s d).map (fun u => u pA)) := by
  intro fuel
  induction fuel with
  | zero => intro s d; exact ⟨fun _ => rfl, fun _ => rfl⟩
  | succ fuel ih =>
    intro s d
    constructor
    · intro hcase
      by_cases ht : g.isTerminal s = true
      · simp [Minimax.minValue, MinimaxPlus.bestUtilities, ht]
      · have hterm_f : g.isTerminal s = false := by simpa using ht
        have hmB : g.mover s = some pB := hcase.resolve_left ht
        have hpoint : ∀ a ∈ g.actions s,
            Minimax.maxValue g pA none none fuel (g.result s a) (d+1) =
              (MinimaxPlus.bestUtilities g none none fuel (g.result s a) (d+1)).map
                (fun u => u pA) := by
          intro a ha
          by_cases ht2 : g.isTerminal (g.result s a) = true
          · exact (ih (g.result s a) (d+1)).2 (Or.inl ht2)
          · have ht2f : g.isTerminal (g.result s a) = false := by simpa using ht2
            have hne := halt s a hterm_f ha ht2f
            rcases hmov (g.result s a) ht2f with hA | hB
            · exact (ih (g.result s a) (d+1)).2 (Or.inr hA)
            · exact absurd (hB.trans hmB.symm) hne
        simp only [Minimax.minValue, MinimaxPlus.bestUtilities, hterm_f,
          Bool.false_eq_true, if_false, cutoffReached, hmB]
        rw [MinimaxPlus.playerFold_start]
        rw [mapOpt_rel
          (fun a => MinimaxPlus.bestUtilities g none none fuel (g.result s a) (d+1))
          (fun u => u pA) _ (g.actions s) hpoint]
        cases hvs : mapOpt
            (fun a => MinimaxPlus.bestUtilities g none none fuel (g.result s a) (d+1))
            (g.actions s) with
        | none => rfl
        | some vs =>
          have hz : ∀ u ∈ vs, u pA + u pB = 0 := by
            intro u hu
            obtain ⟨a, ha, hfa⟩ := mapOpt_mem _ (g.actions s) vs hvs u hu
            exact bestUtilities_zero_sum g pA pB hmov hzs fuel (g.result s a) (d+1) u hfa
          simp only [Option.map_some, Option.some_bind]
          exact (firstMaxBy_opp_coord_min pA pB vs hz).symm
    · intro hcase
      by_cases ht : g.isTerminal s = true
      · simp [Minimax.maxValue, MinimaxPlus.bestUtilities, ht]
      · have hterm_f : g.isTerminal s = false := by simpa using ht
        have hmA : g.mover s = some pA := hcase.resolve_left ht
        have hpoint : ∀ a ∈ g.actions s,
            Minimax.minValue g pA none none fuel (g.result s a) (d+1) =
              (MinimaxPlus.bestUtilities g none none fuel (g.result s a) (d+1)).map
                (fun u => u pA) := by
          intro a ha
          by_cases ht2 : g.isTerminal (g.result s a) = true
          · exact (ih (g.result s a) (d+1)).1 (Or.inl ht2)
          · have ht2f : g.isTerminal (g.result s a) = false := by simpa using ht2
            have hne := halt s a hterm_f ha ht2f
            rcases hmov (g.result s a) ht2f with hA | hB
            · exact absurd (hA.trans hmA.symm) hne
            · exact (ih (g.result s a) (d+1)).1 (Or.inr hB)
        simp only [Minimax.maxValue, MinimaxPlus.bestUtilities, hterm_f,
          Bool.false_eq_true, if_false, cutoffReached, hmA]
        rw [MinimaxPlus.playerFold_start]
        rw [mapOpt_rel
          (fun a => MinimaxPlus.bestUtilities g none none fuel (g.result s a) (d+1))
          (fun u => u pA) _ (g.actions s) hpoint]
        cases hvs : mapOpt
            (fun a => MinimaxPlus.bestUtilities g none none fuel (g.result s a) (d+1))
            (g.actions s) with
        | none => rfl
        | some vs =>
          simp only [Option.map_some, Option.some_bind]
          exact (firstMaxBy_coord_max pA vs).symm

/-- C6 amended: on a deterministic two-player zero-sum game with no
chance nodes **in which the mover strictly alternates between the two
players along every move and the searching player moves at the given
state**, the action returned by `MinimaxPlus.get_action` at full depth
(no depth bound, no heuristic) equals the action returned by
`Minimax.get_action` at full depth, for every recursion fuel. -/
theorem minimaxPlus_eq_minimax_alternating {S A P : Type} (g : Game S A P) (pA pB : P)
    (hmov : ∀ s, g.isTerminal s = false → g.mover s = some pA ∨ g.mover s = some pB)
    (halt : ∀ s a, g.isTerminal s = false → a ∈ g.actions s →
      g.isTerminal (g.result s a) = false → g.mover (g.result s a) ≠ g.mover s)
    (hzs : ∀ s, g.isTerminal s = true → g.utilities s pA + g.utilities s pB = 0)
    (s0 : S) (hterm : g.isTerminal s0 = false) (hroot : g.mover s0 = some pA)
    (fuel : ℕ) :
    MinimaxPlus.getAction g pA none none fuel s0 =
      Minimax.getAction g pA none none fuel s0 := by
  unfold MinimaxPlus.getAction Minimax.getAction
  apply argmax_congr
  intro a ha
  have hmin : Minimax.minValue g pA none none fuel (g.result s0 a) 1 =
      (MinimaxPlus.bestUtilities g none none fuel (g.result s0 a) 1).map
        (fun u => u pA) := by
    by_cases ht2 : g.isTerminal (g.result s0 a) = true
    · exact (minimax_bestUtilities_corr g pA pB hmov halt hzs fuel (g.result s0 a) 1).1
        (Or.inl ht2)
    · have ht2f : g.isTerminal (g.result s0 a) = false := by simpa using ht2
      have hne := halt s0 a hterm ha ht2f
      rcases hmov (g.result s0 a) ht2f with hA | hB
      · exact absurd (hA.trans hroot.symm) hne
      · exact (minimax_bestUtilities_corr g pA pB hmov halt hzs fuel (g.result s0 a) 1).1
          (Or.inr hB)
  rw [hmin]
  cases MinimaxPlus.bestUtilities g none none fuel (g.result s0 a) 1 with
  | none => rfl
  | some u => rfl

/-- Witness for the amended C6 theorem: at the alternating zero-sum
game `gAB`, full-depth `MinimaxPlus` and `Minimax` choose the same
root action. -/
theorem minimaxPlus_eq_minimax_alternating_witness :
    MinimaxPlus.getAction gAB true none none 5 0 =
      Minimax.getAction gAB true none none 5 0 := by
  apply minimaxPlus_eq_minimax_alternating gAB true false
  · intro s hs
    by_cases h0 : s = 0 <;> simp [gAB, h0]
  · intro s a hs ha hr
    have h1 : s = 0 := by
      simp [gAB] at hs hr
      omega
    subst h1
    simp [gAB]
  · intro s _
    by_cases h2 : 2 ≤ s <;> simp [gAB, h2]
  · rfl
  · rfl

end GamesAI

namespace GamesAI.MCTS

/-!
Shallow embedding of `algorithms/MCTS.py`.

* `Node` carries the state and the `player` attribute.  Python
  `Node.__eq__`/`__hash__` compare only `state`, so every dictionary
  keyed by nodes is keyed by states in the embedding.  The `player`
  attribute of the root node built in `get_action` is `self` (the
  searching player, `some selfP`); `find_children` propagates the
  parent's `player`; `find_random_child` stores
  `get_player_playing(state)` which may be `None` (`none`).
* The per-player tables `Q` (`defaultdict(int)`), `N`
  (`defaultdict(int)`) and `children` (a `dict`) become a total
  function `S → ℚ`, a total function `S → ℕ` (default `0`), and an
  insertion-ordered association list.
* `uct_select` computes `max(self.children[node], key=uct)` where
  `uct` mixes `math.log` and `math.sqrt` over IEEE floats.
  Floating-point transcendentals have no faithful rational embedding,
  so the selection function is abstracted as an explicit `uctChoice`
  parameter; every concrete execution in this file stops before the
  first `uct_select` call, and every general theorem quantifies over
  `uctChoice` (at most constrained by `max`'s guarantee of returning a
  member of the non-empty list it is given).
* `random.choice` is determinized by an explicit stream `rng` of
  naturals, read modulo the action-list length; a quantification over
  all streams covers all random executions.
* `unexplored.pop()` removes an arbitrary element of a Python set
  (hash-order and hash-randomization dependent).  Like `uct_select`'s
  outcome, the popped element is abstracted as an explicit `popChoice`
  parameter, constrained where a theorem needs it to return a member
  of the non-empty unexplored list it is handed; quantifying over
  `popChoice` covers every pop order the interpreter may exhibit.
-/

structure Node (S P : Type) where
  state : S
  player : Option P
deriving DecidableEq

structure Tables (S P : Type) where
  Q : S → ℚ
  N : S → ℕ
  children : List (S × List (Node S P))

/-- The tables as created by `MonteCarloTreeSearch.__init__`:
`defaultdict(int)` twice and an empty `dict`. -/
def emptyTables {S P : Type} : Tables S P :=
  { Q := fun _ => 0, N := fun _ => 0, children := [] }

variable {S A P : Type} [DecidableEq S]

/-- The key set of the `children` dict. -/
def keys (t : Tables S P) : List S := t.children.map Prod.fst

/-- `Node.find_children` (`MCTS.py` lines 23-29): one child per action
of the wrapped state, each tagged with the parent node's `player`. -/
def findChildren (g : Game S A P) (n : Node S P) : List (Node S P) :=
  (g.actions n.state).map (fun a => { state := g.result n.state a, player := n.player })

/-- `Node.find_random_child` (`MCTS.py` lines 31-36): a uniformly
random action (`random.choice` raises on an empty list), with the
successor node tagged `get_player_playing(successor)`. -/
def findRandomChild (g : Game S A P) (n : Node S P) (k : ℕ) : Option (Node S P) :=
  match g.actions n.state with
  | [] => none
  | a :: rest =>
    let acts := a :: rest
    let act := acts.getD (k % acts.length) a
    let s2 := g.result n.state act
    some { state := s2, player := g.mover s2 }

/-- `MonteCarloTreeSearch.simulate` (`MCTS.py` lines 118-123): follow
random children until a terminal state, return its utility dict.  The
loop need not terminate (fuel). -/
def simulate (g : Game S A P) (rng : ℕ → ℕ) : ℕ → Node S P → ℕ → Option (P → ℚ)
  | 0, _, _ => none
  | fuel+1, n, i =>
    if g.isTerminal n.state then some (g.utilities n.state)
    else
      match findRandomChild g n (rng i) with
      | none => none
      | some n2 => simulate g rng fuel n2 (i+1)

/-- `unexplored = self.children[node] - self.children.keys()` of
`select` (`MCTS.py` line 105): the children of `node` that are not
themselves keys of `children`, in stored list order (Python builds the
set of them; which element `pop` then removes is the abstract
`popChoice` below, and every element of the Python set is a member of
this list). -/
def unexplored (t : Tables S P) (cs : List (Node S P)) : List (Node S P) :=
  cs.filter (fun c => (t.children.lookup c.state).isNone)

/-- `MonteCarloTreeSearch.select` (`MCTS.py` lines 97-110), written
with the path built by recursion instead of the Python accumulator
loop: stop (returning the path so far) at an unexpanded or
childless node; descend to a popped unexplored child
(`unexplored.pop()`, the abstract `popChoice` applied to the non-empty
unexplored list) and stop; or descend through `uct_select` (the
abstract `uctChoice`). -/
def select (g : Game S A P)
    (uctChoice popChoice : Tables S P → Node S P → List (Node S P) → Node S P)
    (t : Tables S P) : ℕ → Node S P → Option (List (Node S P))
  | 0, _ => none
  | fuel+1, n =>
    match t.children.lookup n.state with
    | none => some [n]
    | some cs =>
      if cs.isEmpty then some [n]
      else
        match unexplored t cs with
        | c :: rest2 => some [n, popChoice t n (c :: rest2)]
        | [] =>
          match select g uctChoice popChoice t fuel (uctChoice t n cs) with
          | none => none
          | some rest => some (n :: rest)

/-- `MonteCarloTreeSearch.expand` (`MCTS.py` lines 112-116): return
unchanged if the node is already a key (note: no terminal check in the
source); otherwise store `find_children(node)` under the node. -/
def expand (g : Game S A P) (t : Tables S P) (n : Node S P) : Tables S P :=
  match t.children.lookup n.state with
  | some _ => t
  | none => { t with children := t.children ++ [(n.state, findChildren g n)] }

/-- The `for node in reversed(path)` loop of
`MonteCarloTreeSearch.backpropagate` (`MCTS.py` lines 125-129):
`N[node] += 1` and `Q[node] += utilities[node.player]`.  A node whose
`player` attribute is `None` raises `KeyError` (`none`); the embedding
then discards the partial updates, which no theorem below depends
on. -/
def backpropLoop : Tables S P → List (Node S P) → (P → ℚ) → Option (Tables S P)
  | t, [], _ => some t
  | t, n :: rest, u =>
    match n.player with
    | none => none
    | some p =>
      backpropLoop
        { t with
          N := fun s => if s = n.state then t.N s + 1 else t.N s
          Q := fun s => if s = n.state then t.Q s + u p else t.Q s }
        rest u

def backpropagate (t : Tables S P) (path : List (Node S P)) (u : P → ℚ) :
    Option (Tables S P) :=
  backpropLoop t path.reverse u

/-- `MonteCarloTreeSearch.do_rollout` (`MCTS.py` lines 89-95):
select, expand the leaf (`path[-1]`), simulate from the leaf,
backpropagate along the path. -/
def doRollout (g : Game S A P)
    (uctChoice popChoice : Tables S P → Node S P → List (Node S P) → Node S P)
    (rng : ℕ → ℕ) (fuel : ℕ) (t : Tables S P) (n : Node S P) :
    Option (Tables S P) :=
  match select g uctChoice popChoice t fuel n with
  | none => none
  | some path =>
    match path.getLast? with
    | none => none
    | some leaf =>
      let t2 := expand g t leaf
      match simulate g rng fuel leaf 0 with
      | none => none
      | some u => backpropagate t2 path u

/-- The `for _ in range(self.n_rollouts): self.do_rollout(node)` loop
of `get_action`; rollout number `i` uses random stream `rngs i`. -/
def rolloutsFrom (g : Game S A P)
    (uctChoice popChoice : Tables S P → Node S P → List (Node S P) → Node S P)
    (rngs : ℕ → ℕ → ℕ) (fuel : ℕ) : ℕ → ℕ → Tables S P → Node S P →
    Option (Tables S P)
  | _, 0, t, _ => some t
  | i, k+1, t, n =>
    match doRollout g uctChoice popChoice (rngs i) fuel t n with
    | none => none
    | some t2 => rolloutsFrom g uctChoice popChoice rngs fuel (i+1) k t2 n

/-- What `MonteCarloTreeSearch.get_action` actually returns: either an
action (via `argmax` over the `score` closure) or — when the root is
not a key of `children` — the `Node` object produced by
`find_random_child`, passed through unchanged. -/
inductive GetActionResult (S A P : Type) where
  | action (a : A)
  | nodeFallback (n : Node S P)
deriving DecidableEq

/-- The `score` closure of `get_action` (`MCTS.py` lines 81-85):
`-inf` for an unvisited successor, else the average utility
`Q[n] / N[n]`. -/
def score (g : Game S A P) (t : Tables S P) (state : S) (a : A) : ERat :=
  let s2 := g.result state a
  if t.N s2 = 0 then ⊥
  else toERat (t.Q s2 / (t.N s2 : ℚ))

/-- `MonteCarloTreeSearch.get_action` (`MCTS.py` lines 68-87): raise
on a terminal root; run `n_rollouts` rollouts; if the root is not a
key of `children`, return `find_random_child(root)` (a `Node`, not an
action); otherwise return the argmax of `score` over the legal
actions. -/
def getAction (g : Game S A P) (selfP : P)
    (uctChoice popChoice : Tables S P → Node S P → List (Node S P) → Node S P)
    (rngs : ℕ → ℕ → ℕ) (fuel nRollouts kFallback : ℕ)
    (t : Tables S P) (state : S) : Option (GetActionResult S A P) :=
  let node : Node S P := { state := state, player := some selfP }
  if g.isTerminal state then none
  else
    match rolloutsFrom g uctChoice popChoice rngs fuel 0 nRollouts t node with
    | none => none
    | some t2 =>
      match t2.children.lookup state with
      | none => (findRandomChild g node kFallback).map GetActionResult.nodeFallback
      | some _ =>
        (argmax (g.actions state) (fun a => some (score g t2 state a))).map
          GetActionResult.action

/-- A `uctChoice` — and equally a `popChoice` — available for
concrete executions: the head of the list it is handed (a member of
any non-empty list, hence one legitimate pop order; and all concrete
executions below stop before the first `uct_select` or call it on a
singleton list, where Python's `max` returns the unique element no
matter what the floating-point scores are). -/
def uctHead : Tables S P → Node S P → List (Node S P) → Node S P :=
  fun _ n cs => cs.headD n

end GamesAI.MCTS

namespace GamesAI

/-!
A two-player game with a self-loop at the root: state `0` is
non-terminal with actions `0, 1, 2` leading to states `0` (itself),
`1` and `2`; states `1` and `2` are terminal with zero-sum utilities.
-/

def gLoop : Game ℕ ℕ Bool where
  actions := fun s => if s = 0 then [0, 1, 2] else []
  result := fun _ a => a
  isTerminal := fun s => decide (s ≠ 0)
  utilities := fun s p =>
    if s = 1 then (if p then 1 else -1)
    else if s = 2 then (if p then -1 else 1) else 0
  mover := fun s => if s = 0 then some true else some false
  chanceDist := fun _ => []
  players := [true, false]

/-- C3 evidence: on the non-terminal root `0` of `gAB` with
`n_rollouts = 0`, `get_action` returns the `Node` produced by
`find_random_child` (wrapping successor state `1`), not an element of
`get_actions(state) = [0]`. -/
theorem mcts_returns_node_fallback_not_action :
    MCTS.getAction gAB true MCTS.uctHead MCTS.uctHead (fun _ _ => 0) 5 0 0 MCTS.emptyTables 0 =
      some (MCTS.GetActionResult.nodeFallback ⟨1, some false⟩) ∧
    gAB.isTerminal 0 = false ∧
    gAB.actions 0 = [0] := by
  refine ⟨rfl, rfl, rfl⟩

/-- C7 counterexample: `expand` called on the terminal state `2` of
`gAB` (not yet a key of the empty `children` table) does not leave the
table unchanged: it inserts the key `2` (with the empty child list,
since a terminal state of `gAB` has no actions). -/
theorem expand_stores_terminal_node :
    gAB.isTerminal 2 = true ∧
    MCTS.emptyTables.children = ([] : List (ℕ × List (MCTS.Node ℕ Bool))) ∧
    (MCTS.expand gAB MCTS.emptyTables ⟨2, some true⟩).children = [(2, [])] := by
  refine ⟨rfl, rfl, rfl⟩

/-- C7 amended: `expand` leaves the tables unchanged exactly when the
node is already a key of `children` (there is no terminal-state
guard); otherwise it appends `children[node] = find_children(node)` —
the successor nodes in action-enumeration order, the empty list when
the game reports no actions — and changes `N` and `Q` not at all. -/
theorem expand_characterization {S A P : Type} [DecidableEq S] (g : Game S A P)
    (t : MCTS.Tables S P) (n : MCTS.Node S P) :
    MCTS.expand g t n =
      if (t.children.lookup n.state).isSome then t
      else { t with children := t.children ++ [(n.state, MCTS.findChildren g n)] } := by
  unfold MCTS.expand
  cases h : t.children.lookup n.state <;> simp [h]

/-- C4 counterexample: running three rollouts of `gAB` from root `0`
(searching player `true`), the node for state `2` — reached from state
`1`, whose mover is player `false` — ends with `Q = 1 = utilities[true]`
(the searching player's component), not
`utilities[false] = -1` as the claim's owner characterization
("the player who was to move in the state from which that node was
reached") requires. -/
theorem backprop_credits_searcher_not_premover :
    (MCTS.rolloutsFrom gAB MCTS.uctHead MCTS.uctHead (fun _ _ => 0) 10 0 3 MCTS.emptyTables
        ⟨0, some true⟩).map (fun t => (t.Q 2, t.N 2)) = some (0 + 1, 1) ∧
    (0 : ℚ) + 1 = 1 ∧
    gAB.mover 1 = some false ∧
    gAB.utilities 2 false = -1 ∧
    (1 : ℚ) ≠ -1 := by
  refine ⟨rfl, by norm_num, rfl, rfl, by norm_num⟩

theorem getLast?_mem_list {α : Type} {l : List α} {a : α}
    (h : l.getLast? = some a) : a ∈ l := by
  rcases List.mem_getLast?_eq_getLast (Option.mem_def.mpr h) with ⟨hne, rfl⟩
  exact List.getLast_mem hne

theorem mem_keys_of_lookup {α β : Type} [DecidableEq α] :
    ∀ (l : List (α × β)) (k : α) (v : β), l.lookup k = some v → k ∈ l.map Prod.fst := by
  intro l
  induction l with
  | nil => intro k v h; simp [List.lookup] at h
  | cons x rest ih =>
    intro k v h
    simp only [List.lookup] at h
    by_cases hk : k == x.1
    · simp_all
    · simp only [hk] at h
      have := ih k v h
      simp_all

/-- C8 counterexample: on `gLoop`, the root is expanded during the
first rollout with its three children `0` (itself), `1`, `2`, all with
visit count `0` at that moment; after the second rollout the child `0`
of the root has visit count `2` while its sibling `2` still has visit
count `0` — and no `uct_select` call was ever reached. -/
theorem uct_first_visit_violated_on_gLoop :
    (MCTS.rolloutsFrom gLoop MCTS.uctHead MCTS.uctHead (fun _ _ => 1) 10 0 2 MCTS.emptyTables
        ⟨0, some true⟩).map
      (fun t => (t.children.lookup 0, t.N 0, t.N 1, t.N 2)) =
      some (some [⟨0, some true⟩, ⟨1, some true⟩, ⟨2, some true⟩], 2, 1, 0) ∧
    (MCTS.expand gLoop MCTS.emptyTables ⟨0, some true⟩).children =
      [(0, [⟨0, some true⟩, ⟨1, some true⟩, ⟨2, some true⟩])] ∧
    (MCTS.emptyTables : MCTS.Tables ℕ Bool).N 0 = 0 ∧
    (MCTS.emptyTables : MCTS.Tables ℕ Bool).N 1 = 0 ∧
    (MCTS.emptyTables : MCTS.Tables ℕ Bool).N 2 = 0 := by
  refine ⟨rfl, rfl, rfl, rfl, rfl⟩

end GamesAI

namespace GamesAI.MCTS

variable {S A P : Type} [DecidableEq S]

/-- Table states reachable by completed `do_rollout` calls from the
freshly constructed empty tables — with arbitrary root nodes, random
streams, recursion fuel, `uct_select` outcomes and `unexplored.pop()`
outcomes (here not even constrained to pick a member), so the
invariants proved about `Reach` hold regardless of all of those. -/
inductive Reach (g : Game S A P) : Tables S P → Prop where
  | init : Reach g emptyTables
  | step (t t2 : Tables S P)
      (uctChoice popChoice : Tables S P → Node S P → List (Node S P) → Node S P)
      (rng : ℕ → ℕ) (fuel : ℕ) (n : Node S P) :
      Reach g t → doRollout g uctChoice popChoice rng fuel t n = some t2 → Reach g t2

/-- A completed `backpropagate` loop leaves `children` unchanged and
adds to each visit count the number of occurrences of the state on the
processed list. -/
theorem backpropLoop_children_N :
    ∀ (l : List (Node S P)) (t t2 : Tables S P) (u : P → ℚ),
      backpropLoop t l u = some t2 →
      t2.children = t.children ∧
      ∀ s : S, t2.N s = t.N s + l.countP (fun nd => decide (nd.state = s)) := by
  intro l
  induction l with
  | nil =>
    intro t t2 u h
    simp only [backpropLoop, Option.some_inj] at h
    subst h
    exact ⟨rfl, fun s => by simp⟩
  | cons n rest ih =>
    intro t t2 u h
    simp only [backpropLoop] at h
    cases hp : n.player with
    | none => rw [hp] at h; exact absurd h (by simp)
    | some p =>
      rw [hp] at h
      simp only [] at h
      obtain ⟨hch, hN⟩ := ih _ t2 u h
      refine ⟨hch, fun s => ?_⟩
      rw [hN s]
      by_cases hs : n.state = s
      · subst hs
        simp [List.countP_cons]
        omega
      · have hs2 : ¬ s = n.state := fun h => hs h.symm
        simp [List.countP_cons, hs, hs2]

theorem backpropagate_children_N (t t2 : Tables S P) (path : List (Node S P))
    (u : P → ℚ) (h : backpropagate t path u = some t2) :
    t2.children = t.children ∧
    ∀ s : S, t2.N s = t.N s + path.countP (fun nd => decide (nd.state = s)) := by
  obtain ⟨hch, hN⟩ := backpropLoop_children_N path.reverse t t2 u h
  refine ⟨hch, fun s => ?_⟩
  rw [hN s]
  simp [List.countP_eq_length_filter, List.filter_reverse]

/-- `expand` in closed form. -/
theorem expand_eq (g : Game S A P) (t : Tables S P) (n : Node S P) :
    expand g t n =
      if (t.children.lookup n.state).isSome then t
      else { t with children := t.children ++ [(n.state, findChildren g n)] } := by
  unfold expand
  cases h : t.children.lookup n.state <;> simp [h]

theorem keys_expand (g : Game S A P) (t : Tables S P) (n : Node S P) (s : S)
    (hs : s ∈ keys (expand g t n)) : s ∈ keys t ∨ s = n.state := by
  rw [expand_eq] at hs
  by_cases h : (t.children.lookup n.state).isSome
  · rw [if_pos h] at hs; exact Or.inl hs
  · rw [if_neg h] at hs
    simp only [keys, List.map_append] at hs
    rcases List.mem_append.mp hs with h2 | h2
    · exact Or.inl h2
    · simp at h2
      exact Or.inr h2

theorem N_expand (g : Game S A P) (t : Tables S P) (n : Node S P) :
    (expand g t n).N = t.N := by
  rw [expand_eq]
  by_cases h : (t.children.lookup n.state).isSome
  · rw [if_pos h]
  · rw [if_neg h]

/-- C10: after every completed `do_rollout` (from the initial empty
tables, for any sequence of roots, random draws and `uct_select`
outcomes), every key of the `children` table has visit count `N ≥ 1`;
consequently, under exactly the guard that makes `select` call
`uct_select` (the node is a key with a non-empty child list and no
unexplored child), the parent and all considered children have
positive visit counts, so `Q[n]/N[n]`, `log(N[vertex])` and
`log_N_vertex / N[n]` are well-defined. -/
theorem rollout_invariant_keys_visited (g : Game S A P) (t : Tables S P)
    (hre : Reach g t) :
    (∀ s ∈ keys t, 1 ≤ t.N s) ∧
    (∀ n cs, t.children.lookup n = some cs → cs.isEmpty = false →
      unexplored t cs = [] → 1 ≤ t.N n ∧ ∀ c ∈ cs, 1 ≤ t.N c.state) := by
  have main : ∀ s ∈ keys t, 1 ≤ t.N s := by
    induction hre with
    | init => intro s hs; simp [keys, emptyTables] at hs
    | step t t2 uctChoice popChoice rng fuel n _ hstep ih =>
      intro s hs
      simp only [doRollout] at hstep
      cases hsel : select g uctChoice popChoice t fuel n with
      | none => rw [hsel] at hstep; exact absurd hstep (by simp)
      | some path =>
        rw [hsel] at hstep
        simp only [] at hstep
        cases hlast : path.getLast? with
        | none => rw [hlast] at hstep; exact absurd hstep (by simp)
        | some leaf =>
          rw [hlast] at hstep
          simp only [] at hstep
          cases hsim : simulate g rng fuel leaf 0 with
          | none => rw [hsim] at hstep; exact absurd hstep (by simp)
          | some u =>
            rw [hsim] at hstep
            simp only [] at hstep
            obtain ⟨hch, hN⟩ := backpropagate_children_N _ _ _ _ hstep
            have hkeys : s ∈ keys (expand g t leaf) := by
              simpa [keys, hch] using hs
            rw [hN s, N_expand]
            rcases keys_expand g t leaf s hkeys with hold | hnew
            · exact le_add_right (ih s hold)
            · subst hnew
              have hmem : leaf ∈ path := getLast?_mem_list hlast
              have : 0 < path.countP (fun nd => decide (nd.state = leaf.state)) :=
                List.countP_pos_iff.mpr ⟨leaf, hmem, by simp⟩
              omega
  refine ⟨main, fun n cs hlk hne hunex => ?_⟩
  have hkeyn : n ∈ keys t := mem_keys_of_lookup t.children n cs hlk
  refine ⟨main n hkeyn, fun c hc => ?_⟩
  have hcn : ¬ (t.children.lookup c.state).isNone := by
    intro hno
    have : c ∈ unexplored t cs := List.mem_filter.mpr ⟨hc, by simpa using hno⟩
    rw [hunex] at this
    exact absurd this (List.not_mem_nil c)
  cases hlk2 : t.children.lookup c.state with
  | none => exact absurd (by simp [hlk2]) hcn
  | some v => exact main c.state (mem_keys_of_lookup t.children c.state v hlk2)

/-- Keys of an association list characterize `lookup`. -/
theorem lookup_none_iff_not_mem {α β : Type} [DecidableEq α] :
    ∀ (l : List (α × β)) (k : α), l.lookup k = none ↔ k ∉ l.map Prod.fst := by
  intro l
  induction l with
  | nil => intro k; simp [List.lookup]
  | cons x rest ih =>
    intro k
    simp only [List.lookup, List.map_cons, List.mem_cons]
    by_cases hk : k = x.1
    · simp [hk]
    · have : (k == x.1) = false := by simpa using hk
      rw [this]
      simp [ih k, hk]

/-- The selection step relation along a `select` path: the successor
node is a stored child of the predecessor, and either it was
unexplored (not yet a key of `children` — the pop case) or the
`uct_select` guard held (the predecessor had no unexplored child:
every stored child is a key). -/
def SelRel (t : Tables S P) (x y : Node S P) : Prop :=
  ∃ cs, t.children.lookup x.state = some cs ∧ y ∈ cs ∧
    (t.children.lookup y.state = none ∨ ∀ c2 ∈ cs, c2.state ∈ keys t)

/-- Structure of every path returned by `select`: it starts at the
given node, consecutive nodes are related by `SelRel`, and every node
but possibly the last is a key of `children`. -/
theorem select_spec (g : Game S A P)
    (uct pop : Tables S P → Node S P → List (Node S P) → Node S P) (t : Tables S P)
    (huct : ∀ tb nd cs, cs ≠ [] → uct tb nd cs ∈ cs)
    (hpop : ∀ tb nd cs, cs ≠ [] → pop tb nd cs ∈ cs) :
    ∀ (fuel : ℕ) (n : Node S P) (path : List (Node S P)),
      select g uct pop t fuel n = some path →
      path.head? = some n ∧
      path.Chain' (SelRel t) ∧
      ∀ nd ∈ path.dropLast, nd.state ∈ keys t := by
  intro fuel
  induction fuel with
  | zero => intro n path h; exact absurd h (by simp [select])
  | succ fuel ih =>
    intro n path h
    simp only [select] at h
    cases hlk : t.children.lookup n.state with
    | none =>
      rw [hlk] at h
      simp only [Option.some_inj] at h
      subst h
      exact ⟨rfl, by simp, by simp⟩
    | some cs =>
      rw [hlk] at h
      simp only [] at h
      by_cases hempty : cs.isEmpty
      · rw [if_pos hempty] at h
        simp only [Option.some_inj] at h
        subst h
        exact ⟨rfl, by simp, by simp⟩
      · rw [if_neg hempty] at h
        cases hunex : unexplored t cs with
        | cons c rest2 =>
          rw [hunex] at h
          simp only [Option.some_inj] at h
          subst h
          have hcmem : pop t n (c :: rest2) ∈ unexplored t cs := by
            rw [hunex]
            exact hpop t n (c :: rest2) (List.cons_ne_nil c rest2)
          obtain ⟨hcs, hnone⟩ := List.mem_filter.mp hcmem
          refine ⟨rfl, ?_, ?_⟩
          · refine List.chain'_cons'.mpr ⟨?_, by simp⟩
            intro y hy
            simp only [List.head?_cons, Option.mem_def, Option.some_inj] at hy
            subst hy
            exact ⟨cs, hlk, hcs, Or.inl (by simpa using hnone)⟩
          · intro nd hnd
            simp only [List.dropLast_cons_of_ne_nil
                (List.cons_ne_nil (pop t n (c :: rest2)) []),
              List.dropLast_single, List.mem_cons] at hnd
            rcases hnd with hnd | hnd
            · subst hnd
              exact mem_keys_of_lookup t.children nd.state cs hlk
            · exact absurd hnd (List.not_mem_nil nd)
        | nil =>
          rw [hunex] at h
          cases hrec : select g uct pop t fuel (uct t n cs) with
          | none => rw [hrec] at h; exact absurd h (by simp)
          | some rest =>
            rw [hrec] at h
            simp only [Option.some_inj] at h
            subst h
            obtain ⟨hh, hch, hdl⟩ := ih (uct t n cs) rest hrec
            have hcsne : cs ≠ [] := by simpa [List.isEmpty_iff] using hempty
            have hallkeys : ∀ c2 ∈ cs, c2.state ∈ keys t := by
              intro c2 hc2
              by_cases hk2 : (t.children.lookup c2.state).isNone
              · have : c2 ∈ unexplored t cs :=
                  List.mem_filter.mpr ⟨hc2, by simpa using hk2⟩
                rw [hunex] at this
                exact absurd this (List.not_mem_nil c2)
              · cases hl2 : t.children.lookup c2.state with
                | none => exact absurd (by simp [hl2]) hk2
                | some v => exact mem_keys_of_lookup t.children c2.state v hl2
            refine ⟨rfl, ?_, ?_⟩
            · refine List.chain'_cons'.mpr ⟨?_, hch⟩
              intro y hy
              rw [hh] at hy
              simp only [Option.mem_def, Option.some_inj] at hy
              subst hy
              exact ⟨cs, hlk, huct t n cs hcsne, Or.inr hallkeys⟩
            · intro nd hnd
              have hrne : rest ≠ [] := by
                intro hcon
                rw [hcon] at hh
                exact absurd hh (by simp)
              rw [List.dropLast_cons_of_ne_nil hrne, List.mem_cons] at hnd
              rcases hnd with hnd | hnd
              · subst hnd
                exact mem_keys_of_lookup t.children nd.state cs hlk
              · exact hdl nd hnd

/-- In a list with a chain relation, every element is the head or has
a predecessor (an element of `dropLast`) related to it. -/
theorem pred_of_mem {α : Type} (R : α → α → Prop) :
    ∀ (l : List α) (h x : α), l.head? = some h → l.Chain' R → x ∈ l →
      x = h ∨ ∃ y ∈ l.dropLast, R y x := by
  intro l
  induction l with
  | nil => intro h x hh _ hx; exact absurd hx (List.not_mem_nil x)
  | cons a tl ih =>
    intro h x hh hch hx
    simp only [List.head?_cons, Option.some_inj] at hh
    subst hh
    rcases List.mem_cons.mp hx with hx | hx
    · exact Or.inl hx
    · cases tl with
      | nil => exact absurd hx (List.not_mem_nil x)
      | cons b tl2 =>
        obtain ⟨hab, hch2⟩ := List.chain'_cons.mp hch
        rcases ih b x rfl hch2 hx with hxb | ⟨y, hy, hR⟩
        · refine Or.inr ⟨a, ?_, hxb ▸ hab⟩
          rw [List.dropLast_cons_of_ne_nil (List.cons_ne_nil b tl2)]
          exact List.mem_cons_self a _
        · refine Or.inr ⟨y, ?_, hR⟩
          rw [List.dropLast_cons_of_ne_nil (List.cons_ne_nil b tl2)]
          exact List.mem_cons_of_mem a hy

/-- Every member of a list is in `dropLast` or is the last element. -/
theorem mem_dropLast_or_getLast {α : Type} :
    ∀ (l : List α) (x : α), x ∈ l → x ∈ l.dropLast ∨ l.getLast? = some x := by
  intro l
  induction l with
  | nil => intro x hx; exact absurd hx (List.not_mem_nil x)
  | cons a tl ih =>
    intro x hx
    cases tl with
    | nil =>
      simp only [List.mem_singleton] at hx
      subst hx
      exact Or.inr rfl
    | cons b tl2 =>
      rcases List.mem_cons.mp hx with hx | hx
      · subst hx
        refine Or.inl ?_
        rw [List.dropLast_cons_of_ne_nil (List.cons_ne_nil b tl2)]
        exact List.mem_cons_self x _
      · rcases ih x hx with hd | hl
        · refine Or.inl ?_
          rw [List.dropLast_cons_of_ne_nil (List.cons_ne_nil b tl2)]
          exact List.mem_cons_of_mem a hd
        · exact Or.inr (by rw [List.getLast?_cons_cons]; exact hl)

/-- A list pairwise-distinct under a projection has at most one
element projecting to any given value. -/
theorem countP_le_one_of_pairwise_ne {α β : Type} [DecidableEq β] (f : α → β) :
    ∀ (l : List α), l.Pairwise (fun x y => f x ≠ f y) →
      ∀ (s : β), l.countP (fun x => decide (f x = s)) ≤ 1 := by
  intro l
  induction l with
  | nil => intro _ s; simp
  | cons a tl ih =>
    intro hpw s
    obtain ⟨hhead, htl⟩ := List.pairwise_cons.mp hpw
    rw [List.countP_cons]
    by_cases ha : f a = s
    · have hz : tl.countP (fun x => decide (f x = s)) = 0 := by
        rw [List.countP_eq_zero]
        intro x hx
        subst ha
        simpa using (hhead x hx).symm
      simp [hz, ha]
    · simp only [List.countP_cons] at *
      simp [ha]
      exact ih htl s

theorem tablesExt {t1 t2 : Tables S P} (hQ : t1.Q = t2.Q) (hN : t1.N = t2.N)
    (hc : t1.children = t2.children) : t1 = t2 := by
  cases t1; cases t2; simp_all

theorem lookup_append_of_some {α β : Type} [DecidableEq α] :
    ∀ (l l2 : List (α × β)) (k : α) (v : β), l.lookup k = some v →
      (l ++ l2).lookup k = some v := by
  intro l l2
  induction l with
  | nil => intro k v h; simp [List.lookup] at h
  | cons x rest ih =>
    intro k v h
    simp only [List.lookup, List.cons_append] at h ⊢
    by_cases hk : k == x.1
    · rw [hk] at h ⊢; exact h
    · simp only [Bool.not_eq_true] at hk
      rw [hk] at h ⊢
      exact ih k v h

theorem lookup_append_of_none {α β : Type} [DecidableEq α] :
    ∀ (l : List (α × β)) (k0 : α) (v0 : β) (k : α), l.lookup k = none →
      (l ++ [(k0, v0)]).lookup k = if k = k0 then some v0 else none := by
  intro l
  induction l with
  | nil =>
    intro k0 v0 k _
    simp only [List.nil_append, List.lookup]
    by_cases hk : k = k0
    · simp [hk]
    · have : (k == k0) = false := by simpa using hk
      simp [this, hk]
  | cons x rest ih =>
    intro k0 v0 k h
    simp only [List.lookup, List.cons_append] at h ⊢
    by_cases hk : k == x.1
    · rw [hk] at h; exact absurd h (by simp)
    · simp only [Bool.not_eq_true] at hk
      rw [hk] at h ⊢
      exact ih k0 v0 k h

/-- Every node on a `select` path from a root tagged with the
searching player is itself tagged with the searching player, provided
every node stored in the `children` table is. -/
theorem path_tags (g : Game S A P)
    (uct pop : Tables S P → Node S P → List (Node S P) → Node S P) (t : Tables S P)
    (selfP : P)
    (huct : ∀ tb nd cs, cs ≠ [] → uct tb nd cs ∈ cs)
    (hpop : ∀ tb nd cs, cs ≠ [] → pop tb nd cs ∈ cs)
    (htab : ∀ s cs, t.children.lookup s = some cs → ∀ c ∈ cs, c.player = some selfP)
    (fuel : ℕ) (rs : S) (path : List (Node S P))
    (hsel : select g uct pop t fuel ⟨rs, some selfP⟩ = some path) :
    ∀ nd ∈ path, nd.player = some selfP := by
  obtain ⟨hh, hch, _⟩ := select_spec g uct pop t huct hpop fuel _ path hsel
  intro nd hnd
  rcases pred_of_mem (SelRel t) path _ nd hh hch hnd with h1 | ⟨y, _, hR⟩
  · rw [h1]
  · obtain ⟨cs, hlk, hmem, _⟩ := hR
    exact htab y.state cs hlk nd hmem

/-- A completed backpropagation over a path of searcher-tagged nodes,
in closed form: `+1` on `N` and `+ u[searcher]` on `Q` per occurrence
of the state on the path, `children` untouched. -/
theorem backpropLoop_tagged_spec (u : P → ℚ) (selfP : P) :
    ∀ (l : List (Node S P)) (t : Tables S P),
      (∀ nd ∈ l, nd.player = some selfP) →
      backpropLoop t l u = some
        { Q := fun s => t.Q s + (l.countP (fun nd => decide (nd.state = s)) : ℚ) * u selfP,
          N := fun s => t.N s + l.countP (fun nd => decide (nd.state = s)),
          children := t.children } := by
  intro l
  induction l with
  | nil =>
    intro t _
    simp only [backpropLoop]
    refine congrArg some (tablesExt (funext fun s => by simp) (funext fun s => by simp) rfl)
  | cons n rest ih =>
    intro t htag
    have hp : n.player = some selfP := htag n (List.mem_cons_self n rest)
    simp only [backpropLoop, hp]
    rw [ih _ (fun nd hnd => htag nd (List.mem_cons_of_mem n hnd))]
    refine congrArg some (tablesExt (funext fun s => ?_) (funext fun s => ?_) rfl)
    · by_cases hs : n.state = s
      · subst hs
        simp [List.countP_cons]
        push_cast
        ring
      · have hs2 : ¬ s = n.state := fun h => hs h.symm
        simp [List.countP_cons, hs, hs2]
    · by_cases hs : n.state = s
      · subst hs
        simp [List.countP_cons]
        omega
      · have hs2 : ¬ s = n.state := fun h => hs h.symm
        simp [List.countP_cons, hs, hs2]

theorem backpropagate_tagged_spec (t : Tables S P) (path : List (Node S P))
    (u : P → ℚ) (selfP : P) (htag : ∀ nd ∈ path, nd.player = some selfP) :
    backpropagate t path u = some
      { Q := fun s => t.Q s + (path.countP (fun nd => decide (nd.state = s)) : ℚ) * u selfP,
        N := fun s => t.N s + path.countP (fun nd => decide (nd.state = s)),
        children := t.children } := by
  unfold backpropagate
  rw [backpropLoop_tagged_spec u selfP path.reverse t
    (fun nd hnd => htag nd (List.mem_reverse.mp hnd))]
  refine congrArg some (tablesExt (funext fun s => ?_) (funext fun s => ?_) rfl) <;>
    simp [List.countP_eq_length_filter, List.filter_reverse]

/-- Table states reachable by completed `do_rollout` calls whose roots
are always tagged with the searching player `selfP` (as `get_action`
does: `Node(state, game, self)`), root states and everything else
arbitrary, with `uct_select` and `unexplored.pop()` each constrained
only to return a member of the non-empty list it is handed (as Python
`max` and set `pop` do). -/
inductive ReachTagged (g : Game S A P) (selfP : P) : Tables S P → Prop where
  | init : ReachTagged g selfP emptyTables
  | step (t t2 : Tables S P)
      (uctChoice popChoice : Tables S P → Node S P → List (Node S P) → Node S P)
      (rng : ℕ → ℕ) (fuel : ℕ) (rs : S) :
      ReachTagged g selfP t →
      (∀ tb nd cs, cs ≠ [] → uctChoice tb nd cs ∈ cs) →
      (∀ tb nd cs, cs ≠ [] → popChoice tb nd cs ∈ cs) →
      doRollout g uctChoice popChoice rng fuel t ⟨rs, some selfP⟩ = some t2 →
      ReachTagged g selfP t2

/-- In every table reachable by searcher-rooted rollouts, all nodes
stored in `children` are tagged with the searching player. -/
theorem tagged_entries (g : Game S A P) (selfP : P) (t : Tables S P)
    (hre : ReachTagged g selfP t) :
    ∀ s cs, t.children.lookup s = some cs → ∀ c ∈ cs, c.player = some selfP := by
  induction hre with
  | init => intro s cs h; simp [emptyTables, List.lookup] at h
  | step t t2 uctChoice popChoice rng fuel rs _ huct hpop hstep ih =>
    intro s cs hlk c hc
    simp only [doRollout] at hstep
    cases hsel : select g uctChoice popChoice t fuel ⟨rs, some selfP⟩ with
    | none => rw [hsel] at hstep; exact absurd hstep (by simp)
    | some path =>
      rw [hsel] at hstep
      simp only [] at hstep
      cases hlast : path.getLast? with
      | none => rw [hlast] at hstep; exact absurd hstep (by simp)
      | some leaf =>
        rw [hlast] at hstep
        simp only [] at hstep
        cases hsim : simulate g rng fuel leaf 0 with
        | none => rw [hsim] at hstep; exact absurd hstep (by simp)
        | some u =>
          rw [hsim] at hstep
          simp only [] at hstep
          obtain ⟨hch, _⟩ := backpropagate_children_N _ _ _ _ hstep
          rw [hch] at hlk
          rw [expand_eq] at hlk
          by_cases hleafkey : (t.children.lookup leaf.state).isSome
          · rw [if_pos hleafkey] at hlk
            exact ih s cs hlk c hc
          · rw [if_neg hleafkey] at hlk
            simp only [] at hlk
            cases hold : t.children.lookup s with
            | some cs0 =>
              rw [lookup_append_of_some t.children _ s cs0 hold] at hlk
              simp only [Option.some_inj] at hlk
              subst hlk
              exact ih s cs0 hold c hc
            | none =>
              rw [lookup_append_of_none t.children leaf.state (findChildren g leaf) s hold]
                at hlk
              by_cases hsl : s = leaf.state
              · rw [if_pos hsl] at hlk
                simp only [Option.some_inj] at hlk
                subst hlk
                have hleaftag : leaf.player = some selfP :=
                  path_tags g uctChoice popChoice t selfP huct hpop ih fuel rs path hsel
                    leaf (getLast?_mem_list hlast)
                simp only [findChildren] at hc
                obtain ⟨a, _, ha⟩ := List.mem_map.mp hc
                rw [← ha]
                exact hleaftag
              · rw [if_neg hsl] at hlk
                exact absurd hlk (by simp)

/-- C4 amended: in each MCTS simulation from a root tagged with the
searching player (as `get_action` always does), every node on the
selection path carries the searching player's tag — the root directly,
stored children by `find_children`'s propagation of the parent's tag —
and `backpropagate` increments the visit count `N` of every node on
the path by one (per occurrence of its state) and adds to its
accumulated utility `Q` the terminal utility component of the
**searching player**, not of the player to move in the predecessor
state. -/
theorem backprop_increments_and_credits_searcher (g : Game S A P)
    (uctChoice popChoice : Tables S P → Node S P → List (Node S P) → Node S P)
    (t : Tables S P) (selfP : P)
    (hre : ReachTagged g selfP t)
    (huct : ∀ tb nd cs, cs ≠ [] → uctChoice tb nd cs ∈ cs)
    (hpop : ∀ tb nd cs, cs ≠ [] → popChoice tb nd cs ∈ cs)
    (fuel : ℕ) (rs : S) (path : List (Node S P))
    (hsel : select g uctChoice popChoice t fuel ⟨rs, some selfP⟩ = some path) (u : P → ℚ) :
    (∀ nd ∈ path, nd.player = some selfP) ∧
    backpropagate t path u = some
      { Q := fun s => t.Q s + (path.countP (fun nd => decide (nd.state = s)) : ℚ) * u selfP,
        N := fun s => t.N s + path.countP (fun nd => decide (nd.state = s)),
        children := t.children } := by
  have htag := path_tags g uctChoice popChoice t selfP huct hpop
    (tagged_entries g selfP t hre) fuel rs path hsel
  exact ⟨htag, backpropagate_tagged_spec t path u selfP htag⟩

/-- Python's `max` over a non-empty list returns one of its elements;
`uctHead` satisfies that constraint. -/
theorem uctHead_mem : ∀ (tb : Tables S P) (nd : Node S P) (cs : List (Node S P)),
    cs ≠ [] → uctHead tb nd cs ∈ cs := by
  intro tb nd cs hne
  cases cs with
  | nil => exact absurd rfl hne
  | cons c r => simp [uctHead]

/-- A completed `do_rollout` decomposes into its four phases. -/
theorem doRollout_decompose (g : Game S A P)
    (uct pop : Tables S P → Node S P → List (Node S P) → Node S P)
    (rng : ℕ → ℕ) (fuel : ℕ) (t t2 : Tables S P) (n : Node S P)
    (h : doRollout g uct pop rng fuel t n = some t2) :
    ∃ path leaf u, select g uct pop t fuel n = some path ∧
      path.getLast? = some leaf ∧
      simulate g rng fuel leaf 0 = some u ∧
      backpropagate (expand g t leaf) path u = some t2 := by
  simp only [doRollout] at h
  cases hsel : select g uct pop t fuel n with
  | none => rw [hsel] at h; exact absurd h (by simp)
  | some path =>
    rw [hsel] at h
    simp only [] at h
    cases hlast : path.getLast? with
    | none => rw [hlast] at h; exact absurd h (by simp)
    | some leaf =>
      rw [hlast] at h
      simp only [] at h
      cases hsim : simulate g rng fuel leaf 0 with
      | none => rw [hsim] at h; exact absurd h (by simp)
      | some u =>
        rw [hsim] at h
        simp only [] at h
        exact ⟨path, leaf, u, rfl, hlast, hsim, h⟩

/-- `expand` either leaves everything alone (already a key) or appends
exactly one entry. -/
theorem expand_split (g : Game S A P) (t : Tables S P) (n : Node S P) :
    ((t.children.lookup n.state).isSome ∧ (expand g t n).children = t.children) ∨
    (t.children.lookup n.state = none ∧
      (expand g t n).children = t.children ++ [(n.state, findChildren g n)]) := by
  rw [expand_eq]
  cases h : t.children.lookup n.state with
  | none => right; simp [h]
  | some v => left; simp [h]

theorem keys_append_single {α β : Type} (l : List (α × β)) (k : α) (v : β) :
    (l ++ [(k, v)]).map Prod.fst = l.map Prod.fst ++ [k] := by
  simp

/-- The node-statistics invariant for MCTS runs over tree-structured
games rooted at `r`: (A) keys are visited; (B) stored children are
successors of their key; (C) only the root and keys are visited;
(E) every key other than the root is a successor of a key;
(D) no stored child has two visits while a sibling has none. -/
def TreeInv (g : Game S A P) (r : S) (t : Tables S P) : Prop :=
  (∀ s ∈ keys t, 1 ≤ t.N s) ∧
  (∀ s cs, t.children.lookup s = some cs →
    ∀ c ∈ cs, ∃ a ∈ g.actions s, c.state = g.result s a) ∧
  (∀ s, 1 ≤ t.N s → s = r ∨ s ∈ keys t) ∧
  (∀ s ∈ keys t, s = r ∨ ∃ s1, s1 ∈ keys t ∧ ∃ a ∈ g.actions s1, s = g.result s1 a) ∧
  (∀ s cs, t.children.lookup s = some cs →
    ∀ c ∈ cs, 2 ≤ t.N c.state → ∀ c2 ∈ cs, 1 ≤ t.N c2.state)

theorem treeInv_init (g : Game S A P) (r : S) :
    TreeInv g r (emptyTables : Tables S P) := by
  refine ⟨?_, ?_, ?_, ?_, ?_⟩
  · intro s hs; simp [keys, emptyTables] at hs
  · intro s cs h; simp [emptyTables, List.lookup] at h
  · intro s hs; simp [emptyTables] at hs
  · intro s hs; simp [keys, emptyTables] at hs
  · intro s cs h; simp [emptyTables, List.lookup] at h

theorem treeInv_step (g : Game S A P) (selfP : P) (r : S) (dep : S → ℕ)
    (hdep : ∀ s a, a ∈ g.actions s → dep (g.result s a) = dep s + 1)
    (hpar : ∀ s1 s2 a1 a2, a1 ∈ g.actions s1 → a2 ∈ g.actions s2 →
      g.result s1 a1 = g.result s2 a2 → s1 = s2)
    (hr : dep r = 0)
    (uct pop : Tables S P → Node S P → List (Node S P) → Node S P)
    (rng : ℕ → ℕ) (fuel : ℕ) (t t2 : Tables S P)
    (huct : ∀ tb nd cs, cs ≠ [] → uct tb nd cs ∈ cs)
    (hpop : ∀ tb nd cs, cs ≠ [] → pop tb nd cs ∈ cs)
    (hstep : doRollout g uct pop rng fuel t ⟨r, some selfP⟩ = some t2)
    (hinv : TreeInv g r t) : TreeInv g r t2 := by
  obtain ⟨iA, iB, iC, iE, iD⟩ := hinv
  obtain ⟨path, leaf, u, hsel, hlast, hsim, hbp⟩ :=
    doRollout_decompose _ _ _ _ _ _ _ _ hstep
  obtain ⟨hch2, hN2⟩ := backpropagate_children_N _ _ _ _ hbp
  have hN : ∀ s, t2.N s = t.N s + path.countP (fun nd => decide (nd.state = s)) := by
    intro s
    rw [hN2 s, N_expand]
  obtain ⟨hh, hchain, hdl⟩ := select_spec g uct pop t huct hpop fuel _ path hsel
  have hdlk : ∀ nd ∈ path.dropLast, nd.state ∈ t.children.map Prod.fst := hdl
  have hleafmem : leaf ∈ path := getLast?_mem_list hlast
  have hchdep : path.Chain' (fun x y => dep x.state < dep y.state) := by
    refine List.Chain'.imp ?_ hchain
    intro x y hxy
    obtain ⟨cs, hlk, hymem, _⟩ := hxy
    obtain ⟨a, haA, hres⟩ := iB x.state cs hlk y hymem
    rw [hres, hdep x.state a haA]
    omega
  have hpw : path.Pairwise (fun x y => x.state ≠ y.state) := by
    haveI : IsTrans (Node S P) (fun x y => dep x.state < dep y.state) :=
      ⟨fun a b c h1 h2 => Nat.lt_trans h1 h2⟩
    exact (List.chain'_iff_pairwise.mp hchdep).imp
      (fun h heq => by rw [heq] at h; exact lt_irrefl _ h)
  have hcount : ∀ s : S, path.countP (fun nd => decide (nd.state = s)) ≤ 1 :=
    countP_le_one_of_pairwise_ne (fun nd => nd.state) path hpw
  have hhead_state : ∀ nd ∈ path, nd.state = r ∨ ∃ y ∈ path.dropLast, SelRel t y nd := by
    intro nd hnd
    rcases pred_of_mem (SelRel t) path _ nd hh hchain hnd with h1 | h2
    · left; rw [h1]
    · right; exact h2
  have hstate_cases : ∀ s : S, 0 < path.countP (fun nd => decide (nd.state = s)) →
      ∃ nd ∈ path, nd.state = s := by
    intro s hpos
    obtain ⟨nd, hnd, hp⟩ := List.countP_pos_iff.mp hpos
    exact ⟨nd, hnd, by simpa using hp⟩
  have hnotkey_is_leaf : ∀ nd ∈ path, t.children.lookup nd.state = none → nd = leaf := by
    intro nd hnd hnone
    rcases mem_dropLast_or_getLast path nd hnd with hdll | hl
    · exact absurd (hdlk nd hdll) ((lookup_none_iff_not_mem _ _).mp hnone)
    · rw [hlast] at hl
      exact (Option.some_inj.mp hl).symm
  -- (C) for the new table, before knowing which expand branch fired
  have hC2 : ∀ s : S, 1 ≤ t2.N s → s = r ∨ s ∈ keys t ∨ s = leaf.state := by
    intro s hs
    rw [hN s] at hs
    by_cases hcp : 0 < path.countP (fun nd => decide (nd.state = s))
    · obtain ⟨nd, hndmem, hndst⟩ := hstate_cases s hcp
      rcases hhead_state nd hndmem with hndr | ⟨y, hydl, hrel⟩
      · left; exact hndst.symm.trans hndr
      · obtain ⟨cs_y, hlky, hndm, hdisj⟩ := hrel
        rcases hdisj with hnone | hallk
        · right; right
          rw [← hndst, hnotkey_is_leaf nd hndmem hnone]
        · right; left
          rw [← hndst]
          exact hallk nd hndm
    · have h1 : 1 ≤ t.N s := by omega
      rcases iC s h1 with h | h
      · exact Or.inl h
      · exact Or.inr (Or.inl h)
  -- (D) for entries already present in the old table
  have hOLDd : ∀ s cs, t.children.lookup s = some cs →
      ∀ c ∈ cs, 2 ≤ t2.N c.state → ∀ c2 ∈ cs, 1 ≤ t2.N c2.state := by
    intro s cs hlk c hcm h2 c2 hc2m
    by_cases h2t : 2 ≤ t.N c.state
    · have := iD s cs hlk c hcm h2t c2 hc2m
      rw [hN]
      omega
    · have hcnt := hcount c.state
      rw [hN] at h2
      have h1t : t.N c.state = 1 := by omega
      obtain ⟨a, haA, hres⟩ := iB s cs hlk c hcm
      have hcr : c.state ≠ r := by
        intro hr2
        have := hdep s a haA
        rw [← hres, hr2, hr] at this
        omega
      have hkeyc : c.state ∈ keys t := (iC c.state (by omega)).resolve_left hcr
      have hcnt1 : 0 < path.countP (fun nd => decide (nd.state = c.state)) := by omega
      obtain ⟨nd, hndmem, hndst⟩ := hstate_cases c.state hcnt1
      rcases hhead_state nd hndmem with hndr | ⟨y, hydl, hrel⟩
      · exact absurd (hndst.symm.trans hndr) hcr
      · obtain ⟨cs_y, hlky, hndm, hdisj⟩ := hrel
        rcases hdisj with hnone | hallk
        · rw [hndst] at hnone
          exact absurd hkeyc ((lookup_none_iff_not_mem _ _).mp hnone)
        · obtain ⟨a2, ha2A, hres2⟩ := iB y.state cs_y hlky nd hndm
          have heq : g.result y.state a2 = g.result s a := by
            rw [← hres2, hndst, hres]
          have hys : y.state = s := hpar y.state s a2 a ha2A haA heq
          rw [hys, hlk] at hlky
          have hcs_eq : cs_y = cs := (Option.some_inj.mp hlky).symm
          subst hcs_eq
          have hk2 : c2.state ∈ keys t := hallk c2 hc2m
          have := iA c2.state hk2
          rw [hN]
          omega
  rcases expand_split g t leaf with ⟨hkeyed, hchexp⟩ | ⟨hnotkeyed, hchexp⟩
  · -- leaf was already a key: children unchanged
    have hch : t2.children = t.children := by rw [hch2, hchexp]
    have hkeys : keys t2 = keys t := by simp [keys, hch]
    have hleafkeys : leaf.state ∈ keys t := by
      cases hl : t.children.lookup leaf.state with
      | none => rw [hl] at hkeyed; exact absurd hkeyed (by simp)
      | some v => exact mem_keys_of_lookup t.children leaf.state v hl
    refine ⟨?_, ?_, ?_, ?_, ?_⟩
    · intro s hs
      rw [hkeys] at hs
      have := iA s hs
      rw [hN]
      omega
    · intro s cs hlk
      rw [hch] at hlk
      exact iB s cs hlk
    · intro s hs
      rcases hC2 s hs with h | h | h
      · exact Or.inl h
      · exact Or.inr (by rw [hkeys]; exact h)
      · exact Or.inr (by rw [hkeys, h]; exact hleafkeys)
    · intro s hs
      rw [hkeys] at hs
      rcases iE s hs with h | ⟨s1, hs1, ha⟩
      · exact Or.inl h
      · exact Or.inr ⟨s1, by rw [hkeys]; exact hs1, ha⟩
    · intro s cs hlk
      rw [hch] at hlk
      exact hOLDd s cs hlk
  · -- leaf was fresh: one entry appended
    have hch : t2.children = t.children ++ [(leaf.state, findChildren g leaf)] := by
      rw [hch2, hchexp]
    have hkeys : keys t2 = keys t ++ [leaf.state] := by
      simp [keys, hch]
    have hlknew : ∀ s cs, t2.children.lookup s = some cs →
        t.children.lookup s = some cs ∨
          (s = leaf.state ∧ t.children.lookup s = none ∧ cs = findChildren g leaf) := by
      intro s cs hlk
      rw [hch] at hlk
      cases hold : t.children.lookup s with
      | some cs0 =>
        rw [lookup_append_of_some t.children _ s cs0 hold] at hlk
        exact Or.inl hlk
      | none =>
        rw [lookup_append_of_none t.children leaf.state (findChildren g leaf) s hold] at hlk
        by_cases hsl : s = leaf.state
        · rw [if_pos hsl] at hlk
          exact Or.inr ⟨hsl, rfl, (Option.some_inj.mp hlk).symm⟩
        · rw [if_neg hsl] at hlk
          exact absurd hlk (by simp)
    refine ⟨?_, ?_, ?_, ?_, ?_⟩
    · intro s hs
      rw [hkeys] at hs
      rcases List.mem_append.mp hs with h | h
      · have := iA s h
        rw [hN]
        omega
      · simp only [List.mem_singleton] at h
        subst h
        have : 0 < path.countP (fun nd => decide (nd.state = leaf.state)) :=
          List.countP_pos_iff.mpr ⟨leaf, hleafmem, by simp⟩
        rw [hN]
        omega
    · intro s cs hlk
      rcases hlknew s cs hlk with hold | ⟨hsl, _, hcs⟩
      · exact iB s cs hold
      · subst hsl
        subst hcs
        intro c hcm
        simp only [findChildren] at hcm
        obtain ⟨a, haA, ha⟩ := List.mem_map.mp hcm
        exact ⟨a, haA, by rw [← ha]⟩
    · intro s hs
      rcases hC2 s hs with h | h | h
      · exact Or.inl h
      · exact Or.inr (by rw [hkeys]; exact List.mem_append_left _ h)
      · exact Or.inr (by rw [hkeys, h]; exact List.mem_append_right _ (List.mem_singleton.mpr rfl))
    · intro s hs
      rw [hkeys] at hs
      rcases List.mem_append.mp hs with h | h
      · rcases iE s h with h2 | ⟨s1, hs1, ha⟩
        · exact Or.inl h2
        · exact Or.inr ⟨s1, by rw [hkeys]; exact List.mem_append_left _ hs1, ha⟩
      · simp only [List.mem_singleton] at h
        subst h
        rcases hhead_state leaf hleafmem with hlr | ⟨y, hydl, hrel⟩
        · exact Or.inl hlr
        · obtain ⟨cs_y, hlky, hlm, _⟩ := hrel
          obtain ⟨a, haA, hres⟩ := iB y.state cs_y hlky leaf hlm
          refine Or.inr ⟨y.state, ?_, a, haA, hres⟩
          rw [hkeys]
          exact List.mem_append_left _ (hdlk y hydl)
    · intro s cs hlk
      rcases hlknew s cs hlk with hold | ⟨hsl, hnone, hcs⟩
      · exact hOLDd s cs hold
      · subst hsl
        subst hcs
        intro c hcm h2 c2 hc2m
        exfalso
        simp only [findChildren] at hcm
        obtain ⟨a, haA, ha⟩ := List.mem_map.mp hcm
        have hcstate : c.state = g.result leaf.state a := by rw [← ha]
        have hdepc : dep c.state = dep leaf.state + 1 := by
          rw [hcstate, hdep leaf.state a haA]
        have hcr : c.state ≠ r := by
          intro hr2
          rw [hr2, hr] at hdepc
          omega
        have hNt0 : t.N c.state = 0 := by
          by_contra hcon
          have h1 : 1 ≤ t.N c.state := by omega
          rcases iC c.state h1 with h | h
          · exact hcr h
          · rcases iE c.state h with h2e | ⟨s1, hs1k, a1, ha1A, hres1⟩
            · exact hcr h2e
            · have : leaf.state = s1 := by
                refine hpar leaf.state s1 a a1 haA ha1A ?_
                rw [← hcstate, hres1]
              rw [← this] at hs1k
              exact (lookup_none_iff_not_mem _ _).mp hnone hs1k
        have hcnt0 : path.countP (fun nd => decide (nd.state = c.state)) = 0 := by
          by_contra hcon
          have hpos : 0 < path.countP (fun nd => decide (nd.state = c.state)) := by omega
          obtain ⟨nd, hndmem, hndst⟩ := hstate_cases c.state hpos
          rcases hhead_state nd hndmem with hndr | ⟨y, hydl, hrel⟩
          · exact hcr (hndst.symm.trans hndr)
          · obtain ⟨cs_y, hlky, hndm, _⟩ := hrel
            obtain ⟨a2, ha2A, hres2⟩ := iB y.state cs_y hlky nd hndm
            have : y.state = leaf.state := by
              refine hpar y.state leaf.state a2 a ha2A haA ?_
              rw [← hres2, hndst, hcstate]
            have hkeyy : y.state ∈ t.children.map Prod.fst := hdlk y hydl
            rw [this] at hkeyy
            exact (lookup_none_iff_not_mem _ _).mp hnone hkeyy
        rw [hN, hNt0, hcnt0] at h2
        omega

/-- Rollouts from one fixed root state `r` (as the rollout loop of a
single `get_action` call performs them), the root tagged with the
searching player, `uct_select` and `unexplored.pop()` outcomes each
constrained only to be members of the non-empty list they are
given. -/
inductive ReachFrom (g : Game S A P) (selfP : P) (r : S) : Tables S P → Prop where
  | init : ReachFrom g selfP r emptyTables
  | step (t t2 : Tables S P)
      (uctChoice popChoice : Tables S P → Node S P → List (Node S P) → Node S P)
      (rng : ℕ → ℕ) (fuel : ℕ) :
      ReachFrom g selfP r t →
      (∀ tb nd cs, cs ≠ [] → uctChoice tb nd cs ∈ cs) →
      (∀ tb nd cs, cs ≠ [] → popChoice tb nd cs ∈ cs) →
      doRollout g uctChoice popChoice rng fuel t ⟨r, some selfP⟩ = some t2 →
      ReachFrom g selfP r t2

/-- C8 amended: on a tree-structured game — one admitting a depth
ranking that increases by one along every edge, with the root at depth
zero and no two distinct states sharing a successor — at no point
reachable by rollouts from the root does a stored child of an expanded
node have visit count `≥ 2` while a sibling still has visit count `0`:
each child of a freshly expanded node is visited once (popped from the
unexplored set, which can happen at most once per state) before any
sibling is selected a second time, and `uct_select` descents only
happen once every child is expanded, hence visited. -/
theorem uct_first_visit_tree (g : Game S A P) (selfP : P) (r : S) (dep : S → ℕ)
    (hdep : ∀ s a, a ∈ g.actions s → dep (g.result s a) = dep s + 1)
    (hpar : ∀ s1 s2 a1 a2, a1 ∈ g.actions s1 → a2 ∈ g.actions s2 →
      g.result s1 a1 = g.result s2 a2 → s1 = s2)
    (hr : dep r = 0)
    (t : Tables S P) (hre : ReachFrom g selfP r t) :
    ∀ s cs, t.children.lookup s = some cs →
      ∀ c ∈ cs, 2 ≤ t.N c.state → ∀ c2 ∈ cs, 1 ≤ t.N c2.state := by
  have hinv : TreeInv g r t := by
    induction hre with
    | init => exact treeInv_init g r
    | step t t2 uctChoice popChoice rng fuel _ huct hpop hstep ih =>
      exact treeInv_step g selfP r dep hdep hpar hr uctChoice popChoice rng fuel t t2
        huct hpop hstep ih
  exact hinv.2.2.2.2

end GamesAI.MCTS

namespace GamesAI

/-- The tables of `gAB` after one, two and three completed rollouts
from root `0`. -/
def tAB1 : MCTS.Tables ℕ Bool :=
  (MCTS.doRollout gAB MCTS.uctHead MCTS.uctHead (fun _ => 0) 10 MCTS.emptyTables
    ⟨0, some true⟩).getD MCTS.emptyTables

def tAB2 : MCTS.Tables ℕ Bool :=
  (MCTS.doRollout gAB MCTS.uctHead MCTS.uctHead (fun _ => 0) 10 tAB1
    ⟨0, some true⟩).getD MCTS.emptyTables

def tAB3 : MCTS.Tables ℕ Bool :=
  (MCTS.doRollout gAB MCTS.uctHead MCTS.uctHead (fun _ => 0) 10 tAB2
    ⟨0, some true⟩).getD MCTS.emptyTables

/-- Witness for the amended C8 theorem on the tree-structured chain
game `gAB` (depth ranking: the state itself): after three rollouts the
root's stored child (state `1`) has two visits, and the theorem yields
that every sibling (here, itself) has at least one. -/
theorem uct_first_visit_tree_witness : 1 ≤ tAB3.N 1 := by
  refine MCTS.uct_first_visit_tree gAB true 0 (fun s => s) ?_ ?_ rfl tAB3 ?_
    0 [⟨1, some true⟩] (by decide) ⟨1, some true⟩ (by decide) (by decide)
    ⟨1, some true⟩ (by decide)
  · intro s a _
    rfl
  · intro s1 s2 a1 a2 _ _ h
    simp only [gAB] at h
    omega
  · exact MCTS.ReachFrom.step tAB2 tAB3 MCTS.uctHead MCTS.uctHead (fun _ => 0) 10
      (MCTS.ReachFrom.step tAB1 tAB2 MCTS.uctHead MCTS.uctHead (fun _ => 0) 10
        (MCTS.ReachFrom.step MCTS.emptyTables tAB1 MCTS.uctHead MCTS.uctHead
          (fun _ => 0) 10 MCTS.ReachFrom.init MCTS.uctHead_mem MCTS.uctHead_mem rfl)
        MCTS.uctHead_mem MCTS.uctHead_mem rfl)
      MCTS.uctHead_mem MCTS.uctHead_mem rfl

end GamesAI

namespace GamesAI

/-- Witness for the amended C4 theorem: backpropagating the terminal
utilities of state `2` of `gAB` along the one-node path `[root 0]`
(the path selected in the fresh tables) adds one visit and the
searching player's utility component to state `0`'s statistics. -/
theorem backprop_credits_searcher_witness :
    (MCTS.backpropagate MCTS.emptyTables [⟨0, some true⟩] (gAB.utilities 2)).map
      (fun tb => (tb.Q 0, tb.N 0)) = some (0 + 1 * gAB.utilities 2 true, 0 + 1) := by
  have h := MCTS.backprop_increments_and_credits_searcher gAB MCTS.uctHead
    MCTS.uctHead MCTS.emptyTables true MCTS.ReachTagged.init MCTS.uctHead_mem
    MCTS.uctHead_mem 5 0 [⟨0, some true⟩] rfl (gAB.utilities 2)
  rw [h.2]
  simp [MCTS.emptyTables, List.countP_cons]

end GamesAI

namespace GamesAI

/-- The tables after one completed rollout of `gAB` from root `0`. -/
def tablesAfterOneRollout : MCTS.Tables ℕ Bool :=
  (MCTS.doRollout gAB MCTS.uctHead MCTS.uctHead (fun _ => 0) 5 MCTS.emptyTables
    ⟨0, some true⟩).getD MCTS.emptyTables

/-- Witness for the C10 invariant at a concrete reachable table:
after one rollout of `gAB`, the root `0` is a key of `children` and
its visit count is at least one. -/
theorem rollout_invariant_witness : 1 ≤ tablesAfterOneRollout.N 0 :=
  (MCTS.rollout_invariant_keys_visited gAB tablesAfterOneRollout
      (MCTS.Reach.step MCTS.emptyTables tablesAfterOneRollout MCTS.uctHead
        MCTS.uctHead (fun _ => 0) 5 ⟨0, some true⟩ MCTS.Reach.init rfl)).1
    0 (by decide)

end GamesAI
